import Mathlib

/-!
Verification development for alectryon's caching and serialization core
(src/alectryon/json.py) and its pipeline resolution surface
(src/alectryon/cli.py).

Values handled by the serializers are Python objects built from None,
int, str, list, dict (string keys, insertion-ordered) and the named
record types registered in TYPE_OF_ALIASES (json.py line 31).  They are
embedded as the inductive type `JVal` below; `JVal.null` models Python
`None`.  Failure of a Python operation (AssertionError, KeyError,
TypeError, AttributeError) is modelled by `Option`: a function returns
`none` exactly when the Python code raises.
-/

/-- Modelled from the spec: the record types registered in json.py's
TYPE_OF_ALIASES live in alectryon/core.py, which is not under src/.  The
spec (section 3) describes them as a closed set of tagged variants, each
carrying an ordered, fixed set of named fields.  `ETag` enumerates the
eight variants; the aliases below are from json.py lines 31-40. -/
inductive ETag where
  | text
  | hypothesis
  | goal
  | message
  | sentence
  | goals
  | messages
  | richSentence
deriving DecidableEq

/-- Wire alias of each variant, from TYPE_OF_ALIASES (json.py lines 31-40). -/
def aliasOf : ETag → String
  | .text => "text"
  | .hypothesis => "hypothesis"
  | .goal => "goal"
  | .message => "message"
  | .sentence => "sentence"
  | .goals => "goals"
  | .messages => "messages"
  | .richSentence => "rich_sentence"

/-- TYPE_OF_ALIASES as a partial lookup: alias string to variant.  A missing
alias models the KeyError raised by `TYPE_OF_ALIASES[type_name]`. -/
def typeOfAlias : String → Option ETag
  | "text" => some .text
  | "hypothesis" => some .hypothesis
  | "goal" => some .goal
  | "message" => some .message
  | "sentence" => some .sentence
  | "goals" => some .goals
  | "messages" => some .messages
  | "rich_sentence" => some .richSentence
  | _ => none

/-- Modelled from the spec: the declared field names, in order, of each
variant (`obj._fields` of the named records in core.py, which is not under
src/).  The spec fixes only that each variant has an ordered, fixed set of
named fields; the names used here follow the spec's narrative (validate_inputs
in json.py line 189 confirms a `contents` field on several variants).  The
proofs rely only on the properties checked in `fieldsOf_nodup` and
`fieldsOf_no_reserved` below, not on the particular spellings. -/
def fieldsOf : ETag → List String
  | .text => ["contents"]
  | .hypothesis => ["names", "body", "type"]
  | .goal => ["name", "conclusion", "hypotheses"]
  | .message => ["contents"]
  | .sentence => ["contents", "messages", "goals"]
  | .goals => ["goals"]
  | .messages => ["messages"]
  | .richSentence => ["input", "outputs", "annots", "prefixes", "suffixes"]

/-- Python values reachable by the serializers: None, int, str, list, dict
(string keys, insertion order significant), and the records of `ETag`
(a record is its tag plus its field values in declared order). -/
inductive JVal where
  | null
  | int (n : Int)
  | str (s : String)
  | list (xs : List JVal)
  | dict (kvs : List (String × JVal))
  | ent (t : ETag) (vals : List JVal)

mutual
/-- Structural equality on `JVal` (Boolean); dict key order is significant,
matching equality of the pickled byte strings used as dedup keys. -/
def jbeq : JVal → JVal → Bool
  | .null, .null => true
  | .int n, .int m => n == m
  | .str s, .str t => s == t
  | .list xs, .list ys => jbeqL xs ys
  | .dict ks, .dict ls => jbeqD ks ls
  | .ent t vs, .ent u ws => t == u && jbeqL vs ws
  | _, _ => false
def jbeqL : List JVal → List JVal → Bool
  | [], [] => true
  | x :: xs, y :: ys => jbeq x y && jbeqL xs ys
  | _, _ => false
def jbeqD : List (String × JVal) → List (String × JVal) → Bool
  | [], [] => true
  | (k, v) :: kvs, (l, w) :: lws => k == l && jbeq v w && jbeqD kvs lws
  | _, _ => false
end

mutual
def jbeq_iff : ∀ a b : JVal, jbeq a b = true ↔ a = b
  | .null, b => by cases b <;> simp [jbeq]
  | .int n, b => by cases b <;> simp [jbeq]
  | .str s, b => by cases b <;> simp [jbeq]
  | .list xs, b => by cases b <;> simp [jbeq, jbeqL_iff xs]
  | .dict ks, b => by cases b <;> simp [jbeq, jbeqD_iff ks]
  | .ent t vs, b => by cases b <;> simp [jbeq, jbeqL_iff vs]
def jbeqL_iff : ∀ xs ys : List JVal, jbeqL xs ys = true ↔ xs = ys
  | [], ys => by cases ys <;> simp [jbeqL]
  | x :: xs, ys => by
      cases ys with
      | nil => simp [jbeqL]
      | cons y ys => simp [jbeqL, jbeq_iff x, jbeqL_iff xs]
def jbeqD_iff : ∀ xs ys : List (String × JVal), jbeqD xs ys = true ↔ xs = ys
  | [], ys => by cases ys <;> simp [jbeqD]
  | (k, v) :: kvs, ys => by
      cases ys with
      | nil => simp [jbeqD]
      | cons q qs =>
        obtain ⟨l, w⟩ := q
        simp [jbeqD, jbeq_iff v, jbeqD_iff kvs, Prod.ext_iff, and_assoc]
end

instance : DecidableEq JVal := fun a b =>
  decidable_of_iff (jbeq a b = true) (jbeq_iff a b)

mutual
/-- Node count of a value, used as recursion fuel by the deduplicating
serializers' embeddings. -/
def jsize : JVal → Nat
  | .null => 1
  | .int _ => 1
  | .str _ => 1
  | .list xs => 1 + jsizeL xs
  | .dict kvs => 1 + jsizeD kvs
  | .ent _ vals => 1 + jsizeL vals
def jsizeL : List JVal → Nat
  | [] => 0
  | x :: xs => 1 + jsize x + jsizeL xs
def jsizeD : List (String × JVal) → Nat
  | [] => 0
  | (_, v) :: kvs => 1 + jsize v + jsizeD kvs
end

/-- Lookup of a key in an association list, first match; models Python dict
subscripting on dicts whose insertion order the list records. -/
def lookupKey (k : String) : List (String × JVal) → Option JVal
  | [] => none
  | (l, v) :: kvs => if l = k then some v else lookupKey k kvs

/-- Membership of a key, modelling Python's `k in d` on a dict. -/
def hasKey (k : String) (kvs : List (String × JVal)) : Bool :=
  kvs.any (fun p => p.1 = k)

/-- Removal of a key (first binding), modelling `d.pop(k, None)`'s effect
on the dict. -/
def removeKey (k : String) : List (String × JVal) → List (String × JVal)
  | [] => []
  | (l, v) :: kvs => if l = k then kvs else (l, v) :: removeKey k kvs

/-- Codepoint-lexicographic string comparison, matching Python's `<=` on
str (comparison is by code points; Lean's own String order is not kernel
reducible, so we spell it out on the character lists). -/
def charsLe : List Char → List Char → Bool
  | [], _ => true
  | _ :: _, [] => false
  | a :: as, b :: bs =>
    if a.toNat < b.toNat then true
    else if b.toNat < a.toNat then false
    else charsLe as bs

def strLe (s t : String) : Bool := charsLe s.data t.data

/-- Stable insertion of one binding into a key-sorted association list. -/
def insertKV (p : String × JVal) : List (String × JVal) → List (String × JVal)
  | [] => [p]
  | q :: qs => if strLe p.1 q.1 then p :: q :: qs else q :: insertKV p qs

/-- Stable sort of a dict's bindings by key, modelling `sorted(obj.items())`
(the keys of a Python dict are distinct, so the item comparison never
reaches the values). -/
def sortByKey : List (String × JVal) → List (String × JVal)
  | [] => []
  | p :: ps => insertKV p (sortByKey ps)

/-- Index of the first structurally equal element, modelling lookup in the
encoder's `obj_table` dict, which is keyed by `pickle.dumps(obj)` (equal
pickles exactly when structurally equal, insertion order included). -/
def lookupIdx (v : JVal) : List JVal → Option Nat
  | [] => none
  | w :: ws => if w = v then some 0 else (lookupIdx v ws).map (· + 1)

/-- Python list indexing `tbl[i]` with an int index: negative indices count
from the end; out of range raises (none). -/
def pyIndex (tbl : List JVal) (i : Int) : Option JVal :=
  if 0 ≤ i then tbl.get? i.toNat
  else if 0 ≤ i + tbl.length then tbl.get? (i + tbl.length).toNat
  else none

/-- Distinctness of the keys of one dict level. -/
def nodupKeysB : List (String × JVal) → Bool
  | [] => true
  | (k, _) :: kvs => !(kvs.any (fun p => p.1 = k)) && nodupKeysB kvs

/-- Adjacent-pair key-sortedness of an association list. -/
def keysSorted : List (String × JVal) → Bool
  | [] => true
  | [_] => true
  | p :: q :: r => strLe p.1 q.1 && keysSorted (q :: r)

/-- Python truthiness of a `JVal` (named records are tuples, truthy when
nonempty). -/
def truthy : JVal → Bool
  | .null => false
  | .int n => n != 0
  | .str s => s != ""
  | .list xs => !xs.isEmpty
  | .dict kvs => !kvs.isEmpty
  | .ent _ vals => !vals.isEmpty

/-- Suffix test on strings, modelling `str.endswith`. -/
def charsHaveStart : List Char → List Char → Bool
  | [], _ => true
  | _ :: _, [] => false
  | a :: as, b :: bs => a == b && charsHaveStart as bs

def strEndsWith (s ext : String) : Bool :=
  charsHaveStart ext.data.reverse s.data.reverse

mutual
/-- Presence anywhere in a value (dicts at any depth, including below
records) of a dict bound at the reserved key "_type": exactly the
condition under which PlainSerializer.encode's assertion fires. -/
def hasBadT : JVal → Bool
  | .null => false
  | .int _ => false
  | .str _ => false
  | .list xs => hasBadTL xs
  | .dict kvs => kvs.any (fun p => p.1 = "_type") || hasBadTD kvs
  | .ent _ vals => hasBadTL vals
def hasBadTL : List JVal → Bool
  | [] => false
  | x :: xs => hasBadT x || hasBadTL xs
def hasBadTD : List (String × JVal) → Bool
  | [] => false
  | (_, v) :: kvs => hasBadT v || hasBadTD kvs
end

mutual
/-- Presence anywhere in a value of a dict bound at the reserved key "*"
or "&": exactly the condition under which the deduplicating serializers'
assertion fires. -/
def hasBadS : JVal → Bool
  | .null => false
  | .int _ => false
  | .str _ => false
  | .list xs => hasBadSL xs
  | .dict kvs => kvs.any (fun p => p.1 = "*" || p.1 = "&") || hasBadSD kvs
  | .ent _ vals => hasBadSL vals
def hasBadSL : List JVal → Bool
  | [] => false
  | x :: xs => hasBadS x || hasBadSL xs
def hasBadSD : List (String × JVal) → Bool
  | [] => false
  | (_, v) :: kvs => hasBadS v || hasBadSD kvs
end

mutual
/-- Key-sort normalization: the value with every dict's bindings put in
sorted key order, recursively.  The deduplicating serializers traverse
dicts in this order, so their decoders rebuild exactly `canon v`. -/
def canon : JVal → JVal
  | .null => .null
  | .int n => .int n
  | .str s => .str s
  | .list xs => .list (canonL xs)
  | .dict kvs => .dict (sortByKey (canonD kvs))
  | .ent t vals => .ent t (canonL vals)
def canonL : List JVal → List JVal
  | [] => []
  | x :: xs => canon x :: canonL xs
def canonD : List (String × JVal) → List (String × JVal)
  | [] => []
  | (k, v) :: kvs => (k, canon v) :: canonD kvs
end

mutual
/-- Arity correctness: every record carries exactly as many field values as
its variant declares (named records cannot be built otherwise in Python;
the embedding makes this a predicate). -/
def wfArity : JVal → Bool
  | .null => true
  | .int _ => true
  | .str _ => true
  | .list xs => wfArityL xs
  | .dict kvs => wfArityD kvs
  | .ent t vals => (vals.length == (fieldsOf t).length) && wfArityL vals
def wfArityL : List JVal → Bool
  | [] => true
  | x :: xs => wfArity x && wfArityL xs
def wfArityD : List (String × JVal) → Bool
  | [] => true
  | (_, v) :: kvs => wfArity v && wfArityD kvs
end

mutual
/-- Key uniqueness at every dict level (Python dicts cannot carry duplicate
keys; the embedding makes this a predicate). -/
def allUniq : JVal → Bool
  | .null => true
  | .int _ => true
  | .str _ => true
  | .list xs => allUniqL xs
  | .dict kvs => nodupKeysB kvs && allUniqD kvs
  | .ent _ vals => allUniqL vals
def allUniqL : List JVal → Bool
  | [] => true
  | x :: xs => allUniq x && allUniqL xs
def allUniqD : List (String × JVal) → Bool
  | [] => true
  | (_, v) :: kvs => allUniq v && allUniqD kvs
end

mutual
/-- Absence of record variants anywhere in a value. -/
def entityFree : JVal → Bool
  | .null => true
  | .int _ => true
  | .str _ => true
  | .list xs => entityFreeL xs
  | .dict kvs => entityFreeD kvs
  | .ent _ _ => false
def entityFreeL : List JVal → Bool
  | [] => true
  | x :: xs => entityFree x && entityFreeL xs
def entityFreeD : List (String × JVal) → Bool
  | [] => true
  | (_, v) :: kvs => entityFree v && entityFreeD kvs
end

mutual
/-- Every dict in the value already has its bindings in sorted key order. -/
def allKeySorted : JVal → Bool
  | .null => true
  | .int _ => true
  | .str _ => true
  | .list xs => allKeySortedL xs
  | .dict kvs => keysSorted kvs && allKeySortedD kvs
  | .ent _ vals => allKeySortedL vals
def allKeySortedL : List JVal → Bool
  | [] => true
  | x :: xs => allKeySorted x && allKeySortedL xs
def allKeySortedD : List (String × JVal) → Bool
  | [] => true
  | (_, v) :: kvs => allKeySorted v && allKeySortedD kvs
end

mutual
/-- Python `==` on the embedded values: lists elementwise in order, dicts
as finite maps (same size, and every left binding equals the right dict's
value at that key — insertion order irrelevant), records by tag and
fields.  (On the record-free values exchanged with the cache file this is
exactly CPython's structural equality.) -/
def pyEq : JVal → JVal → Bool
  | .null, .null => true
  | .int n, .int m => n == m
  | .str s, .str t => s == t
  | .list xs, .list ys => pyEqL xs ys
  | .dict kvs, .dict lws => (kvs.length == lws.length) && pyEqD kvs lws
  | .ent t vs, .ent u ws => t == u && pyEqL vs ws
  | _, _ => false
def pyEqL : List JVal → List JVal → Bool
  | [], [] => true
  | x :: xs, y :: ys => pyEq x y && pyEqL xs ys
  | _, _ => false
def pyEqD : List (String × JVal) → List (String × JVal) → Bool
  | [], _ => true
  | (k, v) :: kvs, lws =>
    (match lookupKey k lws with
     | some w => pyEq v w
     | none => false) && pyEqD kvs lws
end

mutual
/-- Cache.normalize (json.py lines 214-220): tuples and lists become lists
of normalized elements (named records are tuples, so they flatten to their
field values), dict values are normalized in place, everything else is
returned unchanged. -/
def Cache.normalize : JVal → JVal
  | .list xs => .list (Cache.normalizeL xs)
  | .ent _ vals => .list (Cache.normalizeL vals)
  | .dict kvs => .dict (Cache.normalizeD kvs)
  | v => v
def Cache.normalizeL : List JVal → List JVal
  | [] => []
  | x :: xs => Cache.normalize x :: Cache.normalizeL xs
def Cache.normalizeD : List (String × JVal) → List (String × JVal)
  | [] => []
  | (k, v) :: kvs => (k, Cache.normalize v) :: Cache.normalizeD kvs
end

/-- Python `list(x)`: identity on lists, characters of a string, keys of a
dict, fields of a record (tuples); numbers and None are not iterable. -/
def pyList : JVal → Option JVal
  | .list xs => some (.list xs)
  | .str s => some (.list (s.data.map (fun c => .str (String.mk [c]))))
  | .dict kvs => some (.list (kvs.map (fun p => .str p.1)))
  | .ent _ vals => some (.list vals)
  | _ => none

/-- Keyword-argument construction `cls(**obj)` of a record from a dict of
decoded fields: succeeds exactly when the dict binds precisely the declared
field names, and yields the values in declared field order. -/
def kwargsBuild (fields : List String) (obj : List (String × JVal)) : Option (List JVal) :=
  if obj.length = fields.length then fields.mapM (fun f => lookupKey f obj) else none

mutual
/-- PlainSerializer.encode (json.py lines 49-63): lists and dicts map
recursively (a dict must not already contain the reserved "_type" key);
a record becomes a dict with "_type" first, then one binding per field in
declared order; other values pass through. -/
def PlainSerializer.encodeV : JVal → Option JVal
  | .list xs => (PlainSerializer.encodeL xs).map .list
  | .dict kvs =>
    if kvs.any (fun p => p.1 = "_type") then none
    else (PlainSerializer.encodeD kvs).map .dict
  | .ent t vals =>
    (PlainSerializer.encodeL vals).map
      (fun ws => .dict (("_type", .str (aliasOf t)) :: (fieldsOf t).zip ws))
  | v => some v
def PlainSerializer.encodeL : List JVal → Option (List JVal)
  | [] => some []
  | x :: xs => do
    let w ← PlainSerializer.encodeV x
    let ws ← PlainSerializer.encodeL xs
    pure (w :: ws)
def PlainSerializer.encodeD : List (String × JVal) → Option (List (String × JVal))
  | [] => some []
  | (k, v) :: kvs => do
    let w ← PlainSerializer.encodeV v
    let ws ← PlainSerializer.encodeD kvs
    pure ((k, w) :: ws)
end

mutual
/-- PlainSerializer.decode (json.py lines 65-75): lists map recursively; a
dict has its values decoded, then its "_type" binding popped; a truthy
popped value selects the record constructor by alias and rebuilds it from
the remaining bindings by keyword; other values pass through. -/
def PlainSerializer.decodeV : JVal → Option JVal
  | .list xs => (PlainSerializer.decodeL xs).map .list
  | .dict kvs => do
    let obj ← PlainSerializer.decodeD kvs
    match lookupKey "_type" obj with
    | none => pure (JVal.dict obj)
    | some tv =>
      let rest := removeKey "_type" obj
      if truthy tv then
        match tv with
        | .str a =>
          match typeOfAlias a with
          | some t => (kwargsBuild (fieldsOf t) rest).map (JVal.ent t)
          | none => none
        | _ => none
      else pure (JVal.dict rest)
  | v => some v
def PlainSerializer.decodeL : List JVal → Option (List JVal)
  | [] => some []
  | x :: xs => do
    let w ← PlainSerializer.decodeV x
    let ws ← PlainSerializer.decodeL xs
    pure (w :: ws)
def PlainSerializer.decodeD : List (String × JVal) → Option (List (String × JVal))
  | [] => some []
  | (k, v) :: kvs => do
    let w ← PlainSerializer.decodeV v
    let ws ← PlainSerializer.decodeD kvs
    pure ((k, w) :: ws)
end

def PlainSerializer.encode : JVal → Option JVal := PlainSerializer.encodeV

def PlainSerializer.decode : JVal → Option JVal := PlainSerializer.decodeV

/-- copy.deepcopy of an embedded value: a deep copy is structurally equal
to the original, and pure values have no identity in the embedding, so it
is the identity. -/
def deepcopy (v : JVal) : JVal := v

mutual
/-- DeduplicatingSerializer.encode's inner `encode` (json.py lines 83-102),
threading the object table explicitly (table = list of already-encoded
record values in insertion order; an index into it is the value stored in
the Python `obj_table` dict).  The first argument is recursion fuel, an
artifact of the embedding: it strictly bounds the recursion depth and
`jsize` of the encoded value is always sufficient (see the fuel lemmas
below); every recursive call decreases it by one.  Lists map recursively;
dicts must not contain the reserved "*" or "&" keys and map over their
bindings in sorted key order; a record already in the table (by structural
content, the pickled key) becomes a pointer dict, a new record becomes a
reference dict with its encoded fields in order, appended to the table
after its fields are encoded; primitives pass through. -/
def dEncF : Nat → JVal → List JVal → Option (JVal × List JVal)
  | 0, _, _ => none
  | f + 1, v, tbl =>
    match v with
    | .list xs => (dEncLF f xs tbl).map (fun p => (.list p.1, p.2))
    | .dict kvs =>
      if kvs.any (fun p => p.1 = "*" || p.1 = "&") then none
      else (dEncDF f (sortByKey kvs) tbl).map (fun p => (.dict p.1, p.2))
    | .ent t vals =>
      match lookupIdx (.ent t vals) tbl with
      | some i => some (.dict [("*", .int i)], tbl)
      | none =>
        (dEncLF f vals tbl).map (fun p =>
          (.dict [("&", .str (aliasOf t)), ("_", .list p.1)], p.2 ++ [JVal.ent t vals]))
    | v => some (v, tbl)
def dEncLF : Nat → List JVal → List JVal → Option (List JVal × List JVal)
  | _, [], tbl => some ([], tbl)
  | 0, _ :: _, _ => none
  | f + 1, x :: xs, tbl => do
    let p ← dEncF f x tbl
    let q ← dEncLF f xs p.2
    pure (p.1 :: q.1, q.2)
def dEncDF : Nat → List (String × JVal) → List JVal → Option (List (String × JVal) × List JVal)
  | _, [], tbl => some ([], tbl)
  | 0, _ :: _, _ => none
  | f + 1, (k, v) :: kvs, tbl => do
    let p ← dEncF f v tbl
    let q ← dEncDF f kvs p.2
    pure ((k, p.1) :: q.1, q.2)
end

mutual
/-- DeduplicatingSerializer.decode's inner `decode` (json.py lines 104-120),
threading the decode-order table; the Bool is the `copy` flag.  A dict with
a "*" key is a pointer into the table (deep-copied when `copy`); a dict
with an "&" key rebuilds the record positionally from its "_" list and
appends it to the table; any other dict maps over its bindings in sorted
key order; lists map; primitives pass through.  Fuel as in `dEncF`. -/
def dDecF : Nat → Bool → JVal → List JVal → Option (JVal × List JVal)
  | 0, _, _, _ => none
  | f + 1, c, w, tbl =>
    match w with
    | .list ws => (dDecLF f c ws tbl).map (fun p => (.list p.1, p.2))
    | .dict kvs =>
      if hasKey "*" kvs then do
        let iv ← lookupKey "*" kvs
        match iv with
        | .int i => do
          let obj ← pyIndex tbl i
          pure (if c then deepcopy obj else obj, tbl)
        | _ => none
      else if hasKey "&" kvs then do
        let av ← lookupKey "&" kvs
        let t ← (match av with | .str a => typeOfAlias a | _ => none)
        let uv ← lookupKey "_" kvs
        match uv with
        | .list ws => do
          let p ← dDecLF f c ws tbl
          if p.1.length = (fieldsOf t).length then
            pure (JVal.ent t p.1, p.2 ++ [JVal.ent t p.1])
          else none
        | _ => none
      else (dDecDF f c (sortByKey kvs) tbl).map (fun p => (.dict p.1, p.2))
    | w => some (w, tbl)
def dDecLF : Nat → Bool → List JVal → List JVal → Option (List JVal × List JVal)
  | _, _, [], tbl => some ([], tbl)
  | 0, _, _ :: _, _ => none
  | f + 1, c, x :: xs, tbl => do
    let p ← dDecF f c x tbl
    let q ← dDecLF f c xs p.2
    pure (p.1 :: q.1, q.2)
def dDecDF : Nat → Bool → List (String × JVal) → List JVal → Option (List (String × JVal) × List JVal)
  | _, _, [], tbl => some ([], tbl)
  | 0, _, _ :: _, _ => none
  | f + 1, c, (k, v) :: kvs, tbl => do
    let p ← dDecF f c v tbl
    let q ← dDecDF f c kvs p.2
    pure ((k, p.1) :: q.1, q.2)
end

def DeduplicatingSerializer.encode (obj : JVal) : Option JVal :=
  (dEncF (jsize obj) obj []).map Prod.fst

def DeduplicatingSerializer.decode (js : JVal) (copy : Bool) : Option JVal :=
  (dDecF (jsize js) copy js []).map Prod.fst

mutual
/-- FullyDeduplicatingSerializer.encode's inner `encode`/`_encode`
(json.py lines 124-146): every value already in the table (pickled key)
becomes a pointer; otherwise its body is encoded exactly as in `dEncF`'s
body and the value itself is appended to the table afterwards.  Fuel as in
`dEncF`. -/
def fEncF : Nat → JVal → List JVal → Option (JVal × List JVal)
  | 0, _, _ => none
  | f + 1, v, tbl =>
    match lookupIdx v tbl with
    | some i => some (.dict [("*", .int i)], tbl)
    | none =>
      match v with
      | .list xs => (fEncLF f xs tbl).map (fun p => (.list p.1, p.2 ++ [JVal.list xs]))
      | .dict kvs =>
        if kvs.any (fun p => p.1 = "*" || p.1 = "&") then none
        else (fEncDF f (sortByKey kvs) tbl).map (fun p => (.dict p.1, p.2 ++ [JVal.dict kvs]))
      | .ent t vals =>
        (fEncLF f vals tbl).map (fun p =>
          (.dict [("&", .str (aliasOf t)), ("_", .list p.1)], p.2 ++ [JVal.ent t vals]))
      | v => some (v, tbl ++ [v])
def fEncLF : Nat → List JVal → List JVal → Option (List JVal × List JVal)
  | _, [], tbl => some ([], tbl)
  | 0, _ :: _, _ => none
  | f + 1, x :: xs, tbl => do
    let p ← fEncF f x tbl
    let q ← fEncLF f xs p.2
    pure (p.1 :: q.1, q.2)
def fEncDF : Nat → List (String × JVal) → List JVal → Option (List (String × JVal) × List JVal)
  | _, [], tbl => some ([], tbl)
  | 0, _ :: _, _ => none
  | f + 1, (k, v) :: kvs, tbl => do
    let p ← fEncF f v tbl
    let q ← fEncDF f kvs p.2
    pure ((k, p.1) :: q.1, q.2)
end

mutual
/-- FullyDeduplicatingSerializer.decode's inner `decode`/`_decode`
(json.py lines 148-166): a dict with a "*" key is a pointer (deep copy
when `copy`); every other value has its body decoded as in `dDecF` and the
decoded value appended to the table — containers and leaves alike.  Fuel
as in `dEncF`. -/
def fDecF : Nat → Bool → JVal → List JVal → Option (JVal × List JVal)
  | 0, _, _, _ => none
  | f + 1, c, w, tbl =>
    match w with
    | .dict kvs =>
      if hasKey "*" kvs then do
        let iv ← lookupKey "*" kvs
        match iv with
        | .int i => do
          let obj ← pyIndex tbl i
          pure (if c then deepcopy obj else obj, tbl)
        | _ => none
      else if hasKey "&" kvs then do
        let av ← lookupKey "&" kvs
        let t ← (match av with | .str a => typeOfAlias a | _ => none)
        let uv ← lookupKey "_" kvs
        match uv with
        | .list ws => do
          let p ← fDecLF f c ws tbl
          if p.1.length = (fieldsOf t).length then
            pure (JVal.ent t p.1, p.2 ++ [JVal.ent t p.1])
          else none
        | _ => none
      else (fDecDF f c (sortByKey kvs) tbl).map (fun p => (.dict p.1, p.2 ++ [JVal.dict p.1]))
    | .list ws => (fDecLF f c ws tbl).map (fun p => (.list p.1, p.2 ++ [JVal.list p.1]))
    | w => some (w, tbl ++ [w])
def fDecLF : Nat → Bool → List JVal → List JVal → Option (List JVal × List JVal)
  | _, _, [], tbl => some ([], tbl)
  | 0, _, _ :: _, _ => none
  | f + 1, c, x :: xs, tbl => do
    let p ← fDecF f c x tbl
    let q ← fDecLF f c xs p.2
    pure (p.1 :: q.1, q.2)
def fDecDF : Nat → Bool → List (String × JVal) → List JVal → Option (List (String × JVal) × List JVal)
  | _, _, [], tbl => some ([], tbl)
  | 0, _, _ :: _, _ => none
  | f + 1, c, (k, v) :: kvs, tbl => do
    let p ← fDecF f c v tbl
    let q ← fDecDF f c kvs p.2
    pure ((k, p.1) :: q.1, q.2)
end

def FullyDeduplicatingSerializer.encode (obj : JVal) : Option JVal :=
  (fEncF (jsize obj) obj []).map Prod.fst

def FullyDeduplicatingSerializer.decode (js : JVal) (copy : Bool) : Option JVal :=
  (fDecF (jsize js) copy js []).map Prod.fst

/-- Python subscript `d[k]`: KeyError on a missing key, TypeError on a
non-dict — both are `none`. -/
def pySubscript (d : JVal) (k : String) : Option JVal :=
  match d with
  | .dict kvs => lookupKey k kvs
  | _ => none

/-- Python `d.get(k)`: `None` on a missing key; AttributeError (none) when
`d` is not a dict. -/
def pyDictGet (d : JVal) (k : String) : Option JVal :=
  match d with
  | .dict kvs => some ((lookupKey k kvs).getD .null)
  | _ => none

/-- validate_detailed (json.py lines 194-199) without the diagnostic print:
Python `==` on the two values. -/
def validate_detailed (data reference : JVal) : Bool := pyEq data reference

/-- validate_contents (json.py lines 201-206) without the diagnostic print. -/
def validate_contents (data reference : JVal) : Bool := pyEq data reference

/-- Cache._validate (json.py lines 222-225) on the entry's `data` (a JVal,
`JVal.null` when the entry was never populated); the chunks/config
arguments arrive already normalized, as in Cache.get. -/
def Cache.validate (data nchunks nconfig : JVal) : Option Bool :=
  if data = JVal.null then some false
  else do
    let cfg ← pySubscript data "config"
    if validate_detailed cfg nconfig then do
      let cks ← pyDictGet data "chunks"
      pure (validate_contents cks nchunks)
    else pure false

/-- Cache.get (json.py lines 227-230): normalize both inputs, validate
against the stored entry, and return the decoded stored annotated result
on a hit, Python None (JVal.null) on a miss. -/
def Cache.get (data chunks metadata : JVal) : Option JVal := do
  let ok ← Cache.validate data (Cache.normalize chunks) (Cache.normalize metadata)
  if ok then do
    let a ← pyDictGet data "annotated"
    PlainSerializer.decode a
  else pure JVal.null

/-- The placeholder generator pair of Cache.generator (json.py line 234),
as the two-element sequence a named pair normalizes to. -/
def Cache.generatorDefault : JVal := .list [.str "Coq+SerAPI", .str "??"]

/-- Cache.generator (json.py lines 232-234): `self.data.get("generator",
placeholder)` unpacked into the two-field GeneratorInfo record (modelled
from the spec: core.GeneratorInfo is a (name, version) pair; core.py is
not under src/).  On a never-populated entry `self.data` is None and the
attribute access raises — `none`. -/
def Cache.generator (data : JVal) : Option (JVal × JVal) :=
  match data with
  | .dict kvs =>
    match (lookupKey "generator" kvs).getD Cache.generatorDefault with
    | .list [a, b] => some (a, b)
    | .ent _ [a, b] => some (a, b)
    | _ => none
  | _ => none

/-- Cache.put (json.py lines 236-240): overwrite the entry's data with the
four-field dict in source order; generator and config are normalized,
chunks pass through `list(...)`, the annotated result is encoded with the
entry's serializer (PlainSerializer). -/
def Cache.put (chunks config annotated generator : JVal) : Option JVal := do
  let w ← PlainSerializer.encode annotated
  let cs ← pyList chunks
  pure (JVal.dict [("generator", Cache.normalize generator),
                   ("config", Cache.normalize config),
                   ("chunks", cs),
                   ("annotated", w)])

/-- The external prover collaborator: `annotate(chunks, **config)` and
`version_info()` (spec section 6; the config dict is passed as keyword
arguments, modelled as passing the whole dict). -/
structure Prover where
  annotate : JVal → JVal → JVal
  name : String
  version : String

/-- Modelled from the spec: core.GeneratorInfo, a named (name, version)
pair, given here as the two-element sequence it normalizes to. -/
def Prover.version_info (p : Prover) : JVal := .list [.str p.name, .str p.version]

/-- Cache.update (json.py lines 242-247): try `get`; on a miss (`None`)
call the prover, store via `put`, and return the fresh result; on a hit
return the stored decoded result.  The Nat counts prover invocations
(0 or 1). -/
def Cache.update (p : Prover) (data chunks config : JVal) : Option (JVal × JVal × Nat) := do
  let ann ← Cache.get data chunks config
  if ann = JVal.null then
    let a := p.annotate chunks config
    match Cache.put chunks config a p.version_info with
    | some d => pure (a, d, 1)
    | none => none
  else pure (ann, data, 0)

def FileCacheSet.CACHE_VERSION : String := "2"

def FileCacheSet.METADATA : JVal := .dict [("cache_version", .str FileCacheSet.CACHE_VERSION)]

/-- The compression codecs of KNOWN_COMPRESSIONS in dict insertion order
(json.py lines 253-257); the codec name stands in for its file extension,
which is in bijection with it. -/
def FileCacheSet.KNOWN_COMPRESSIONS : List String := ["none", "gzip", "xz"]

/-- The on-disk state for one document: at most one cache file per codec,
keyed by codec name, holding the decoded JSON content.  Paths, directory
creation and byte-level compression are not modelled. -/
abbrev Disk := List (String × JVal)

/-- FileCacheSet._read (json.py lines 288-295): probe the codecs in
KNOWN_COMPRESSIONS order and load the first file present; (None, None)
when none exists. -/
def FileCacheSet.read (disk : Disk) : Option String × JVal :=
  match lookupKey "none" disk with
  | some js => (some "none", js)
  | none =>
    match lookupKey "gzip" disk with
    | some js => (some "gzip", js)
    | none =>
      match lookupKey "xz" disk with
      | some js => (some "xz", js)
      | none => (none, JVal.null)

/-- The in-memory state of a FileCacheSet: requested and found compression,
the loaded JSON (`JVal.null` models Python None when no file was found),
and the per-language entry data (the dict passed to each `Cache`;
`JVal.null` is an unpopulated entry). -/
structure FileCacheSet where
  wanted_compression : String
  ondisk_compression : Option String
  js : JVal
  caches : List (String × JVal)

/-- FileCacheSet._validate (json.py lines 297-299): the loaded value is
truthy and its "metadata" entry equals METADATA; subscripting a truthy
non-dict or a dict without "metadata" raises (none). -/
def FileCacheSet.validateMeta (js : JVal) : Option Bool :=
  if truthy js then
    (pySubscript js "metadata").map (fun m => validate_detailed m FileCacheSet.METADATA)
  else some false

/-- FileCacheSet.__init__ after _read (json.py lines 259-275): reject an
unknown requested compression (ValueError; `cache_compression or "none"`
turns an absent or empty argument into "none"); when the loaded file
validates, register one entry per language of its "caches" dict in sorted
order, else start with no entries. -/
def FileCacheSet.mkSet (cache_compression : Option String) (ondisk : Option String)
    (js : JVal) : Option FileCacheSet :=
  let wanted := match cache_compression with
    | some s => if s = "" then "none" else s
    | none => "none"
  if wanted ∈ FileCacheSet.KNOWN_COMPRESSIONS then do
    let v ← FileCacheSet.validateMeta js
    if v then do
      let cs ← pySubscript js "caches"
      match cs with
      | .dict kvs => pure ⟨wanted, ondisk, js, sortByKey kvs⟩
      | _ => none
    else pure ⟨wanted, ondisk, js, []⟩
  else none

/-- Construction against a disk: _read then __init__'s remaining steps. -/
def FileCacheSet.load (cache_compression : Option String) (disk : Disk) :
    Option FileCacheSet :=
  let p := FileCacheSet.read disk
  FileCacheSet.mkSet cache_compression p.1 p.2

/-- FileCacheSet.__getitem__ (json.py lines 301-304): the entry for a
language, lazily registered as empty when absent. -/
def FileCacheSet.getEntry (s : FileCacheSet) (lang : String) : FileCacheSet × JVal :=
  match lookupKey lang s.caches with
  | some d => (s, d)
  | none => ({ s with caches := s.caches ++ [(lang, JVal.null)] }, JVal.null)

/-- The snapshot recomputed by FileCacheSet._write (json.py lines 330-332):
metadata plus one entry per registered language, sorted by language tag. -/
def FileCacheSet.snapshot (s : FileCacheSet) : JVal :=
  .dict [("metadata", FileCacheSet.METADATA), ("caches", .dict (sortByKey s.caches))]

/-- FileCacheSet._check_recompression (json.py lines 306-314) without the
informational print. -/
def FileCacheSet.check_recompression (s : FileCacheSet) : Bool :=
  s.ondisk_compression != some s.wanted_compression

/-- FileCacheSet._delete_old_caches (json.py lines 316-321): unlink the
file of every known codec. -/
def FileCacheSet.delete_old_caches (disk : Disk) : Disk :=
  disk.filter (fun p => !(FileCacheSet.KNOWN_COMPRESSIONS.contains p.1))

/-- FileCacheSet._force_write (json.py lines 323-327): delete all variant
files, write the snapshot under the wanted compression, remember it. -/
def FileCacheSet.force_write (s : FileCacheSet) (js : JVal) (disk : Disk) :
    FileCacheSet × Disk :=
  ({ s with js := js, ondisk_compression := some s.wanted_compression },
   FileCacheSet.delete_old_caches disk ++ [(s.wanted_compression, js)])

/-- FileCacheSet._write (json.py lines 329-334), the body of __exit__:
recompute the snapshot and write it out only when it differs (Python `!=`)
from the loaded content or recompression was requested. -/
def FileCacheSet.write (s : FileCacheSet) (disk : Disk) : FileCacheSet × Disk :=
  let js := FileCacheSet.snapshot s
  if !(pyEq js s.js) || FileCacheSet.check_recompression s then
    FileCacheSet.force_write s js disk
  else (s, disk)

/-- Key lookup in the CLI's string-keyed tables (the Python dicts and
association lists of cli.py). -/
def lookupTab {α : Type} (k : String) : List (String × α) → Option α
  | [] => none
  | (l, v) :: kvs => if l = k then some v else lookupTab k kvs

def FRONTENDS_BY_EXTENSION : List (String × String) :=
  [(".v", "coq+rst"), (".lean", "lean3"), (".lean3", "lean3"),
   (".v.json", "coq.json"), (".lean3.json", "lean3.json"),
   (".rst", "rst"), (".md", "md")]

def BACKENDS_BY_EXTENSION : List (String × String) :=
  [(".v", "coq"), (".lean", "lean3"),
   (".json", "json"), (".rst", "rst"),
   (".lint.json", "lint"),
   (".snippets.html", "snippets-html"),
   (".snippets.tex", "snippets-latex"),
   (".v.html", "webpage"), (".html", "webpage"),
   (".v.tex", "latex"), (".tex", "latex")]

def DEFAULT_BACKENDS : List (String × String) :=
  [("coq.json", "json"), ("lean3.json", "json"),
   ("coq", "webpage"), ("coqdoc", "webpage"), ("coq+rst", "webpage"),
   ("lean3", "webpage"), ("rst", "webpage"), ("md", "webpage")]

/-- PIPELINES (cli.py lines 362-477): the ordered step list for each
(frontend, backend) pair; steps are identified by their function names
(`write_file(...)` is a step built by the write_file factory). -/
def PIPELINES : List (String × List (String × List String)) :=
  [("coq.json",
    [("json", ["read_json", "annotate_chunks", "encode_json", "dump_json", "write_file"]),
     ("snippets-html", ["read_json", "annotate_chunks", "apply_transforms",
                        "gen_html_snippets", "dump_html_snippets", "write_file"]),
     ("snippets-latex", ["read_json", "annotate_chunks", "apply_transforms",
                         "gen_latex_snippets", "dump_latex_snippets", "write_file"])]),
   ("lean3.json",
    [("json", ["read_json", "annotate_chunks", "encode_json", "dump_json", "write_file"]),
     ("snippets-html", ["read_json", "annotate_chunks", "apply_transforms",
                        "gen_html_snippets", "dump_html_snippets", "write_file"]),
     ("snippets-latex", ["read_json", "annotate_chunks", "apply_transforms",
                         "gen_latex_snippets", "dump_latex_snippets", "write_file"])]),
   ("coq",
    [("null", ["read_plain", "parse_plain", "annotate_chunks"]),
     ("webpage", ["read_plain", "parse_plain", "annotate_chunks", "apply_transforms",
                  "gen_html_snippets", "dump_html_standalone", "copy_assets", "write_file"]),
     ("snippets-html", ["read_plain", "parse_plain", "annotate_chunks", "apply_transforms",
                        "gen_html_snippets", "dump_html_snippets", "write_file"]),
     ("snippets-latex", ["read_plain", "parse_plain", "annotate_chunks", "apply_transforms",
                         "gen_latex_snippets", "dump_latex_snippets", "write_file"]),
     ("lint", ["read_plain", "register_docutils", "lint_docutils", "write_file"]),
     ("rst", ["read_plain", "code_to_rst", "write_file"]),
     ("json", ["read_plain", "parse_plain", "annotate_chunks", "encode_json",
               "dump_json", "write_file"])]),
   ("lean3",
    [("null", ["read_plain", "parse_plain", "annotate_chunks"]),
     ("webpage", ["read_plain", "parse_plain", "annotate_chunks", "apply_transforms",
                  "gen_html_snippets", "dump_html_standalone", "copy_assets", "write_file"]),
     ("snippets-html", ["read_plain", "parse_plain", "annotate_chunks", "apply_transforms",
                        "gen_html_snippets", "dump_html_snippets", "write_file"]),
     ("snippets-latex", ["read_plain", "parse_plain", "annotate_chunks", "apply_transforms",
                         "gen_latex_snippets", "dump_latex_snippets", "write_file"]),
     ("json", ["read_plain", "parse_plain", "annotate_chunks", "encode_json",
               "dump_json", "write_file"])]),
   ("coq+rst",
    [("webpage", ["read_plain", "register_docutils", "gen_docutils", "copy_assets", "write_file"]),
     ("latex", ["read_plain", "register_docutils", "gen_docutils", "copy_assets", "write_file"]),
     ("lint", ["read_plain", "register_docutils", "lint_docutils", "write_file"]),
     ("rst", ["read_plain", "code_to_rst", "write_file"])]),
   ("coqdoc",
    [("webpage", ["read_plain", "parse_plain", "annotate_chunks",
                  "gen_html_snippets_with_coqdoc", "dump_html_standalone",
                  "copy_assets", "write_file"])]),
   ("rst",
    [("webpage", ["read_plain", "register_docutils", "gen_docutils", "copy_assets", "write_file"]),
     ("latex", ["read_plain", "register_docutils", "gen_docutils", "copy_assets", "write_file"]),
     ("lint", ["read_plain", "register_docutils", "lint_docutils", "write_file"]),
     ("coq", ["read_plain", "rst_to_code", "write_file"]),
     ("coq+rst", ["read_plain", "rst_to_code", "write_file"])]),
   ("md",
    [("webpage", ["read_plain", "register_docutils", "gen_docutils", "copy_assets", "write_file"]),
     ("latex", ["read_plain", "register_docutils", "gen_docutils", "copy_assets", "write_file"]),
     ("lint", ["read_plain", "register_docutils", "lint_docutils", "write_file"])])]

/-- The configuration failures of pipeline resolution, carried with the
data the corresponding Python exception message is formatted from. -/
inductive CliError where
  | argumentType (kind fpath arg : String)
  | assertFailed (frontend : String)
  | keyMissing (key : String)
  | unsupportedBackend (frontend backend : String) (supported : List String)
deriving DecidableEq

/-- infer_mode (cli.py lines 519-525): first table entry whose extension
is a suffix of the path wins; otherwise an ArgumentTypeError. -/
def infer_mode (fpath kind arg : String) (table : List (String × String)) :
    Except CliError String :=
  match table.find? (fun p => strEndsWith fpath p.1) with
  | some p => .ok p.2
  | none => .error (.argumentType kind fpath arg)

def infer_frontend (fpath : String) : Except CliError String :=
  infer_mode fpath "input" "--frontend" FRONTENDS_BY_EXTENSION

/-- infer_backend (cli.py lines 530-533): a truthy output path selects by
its suffix, otherwise the frontend's default backend (a missing default
would be a KeyError; the table covers every frontend). -/
def infer_backend (frontend : String) (out_fpath : Option String) :
    Except CliError String :=
  match out_fpath with
  | some o =>
    if o = "" then
      match lookupTab frontend DEFAULT_BACKENDS with
      | some b => .ok b
      | none => .error (.keyMissing frontend)
    else infer_mode o "output" "--backend" BACKENDS_BY_EXTENSION
  | none =>
    match lookupTab frontend DEFAULT_BACKENDS with
    | some b => .ok b
    | none => .error (.keyMissing frontend)

/-- The frontend chosen by resolve_pipeline's first line:
`args.frontend or infer_frontend(fpath)`. -/
def frontend_of (fpath : String) (argF : Option String) : Except CliError String :=
  match argF with
  | some f => if f = "" then infer_frontend fpath else .ok f
  | none => infer_frontend fpath

/-- The backend chosen by resolve_pipeline:
`args.backend or infer_backend(frontend, args.output)`. -/
def backend_of (frontend : String) (argB argOut : Option String) :
    Except CliError String :=
  match argB with
  | some b => if b = "" then infer_backend frontend argOut else .ok b
  | none => infer_backend frontend argOut

/-- resolve_pipeline (cli.py lines 535-548): resolve the frontend, require
it registered (assert), resolve the backend, and fail with the
configuration error naming the frontend, the backend and the frontend's
supported backends when the pair is not registered; otherwise return the
step list. -/
def resolve_pipeline (fpath : String) (argF argB argOut : Option String) :
    Except CliError (String × String × List String) := do
  let frontend ← frontend_of fpath argF
  match lookupTab frontend PIPELINES with
  | none => .error (.assertFailed frontend)
  | some supported => do
    let backend ← backend_of frontend argB argOut
    match lookupTab backend supported with
    | none => .error (.unsupportedBackend frontend backend (supported.map Prod.fst))
    | some steps => .ok (frontend, backend, steps)

/-- post_process_arguments' pipeline construction (cli.py lines 590-591):
every input is resolved up front, in order, before any step runs; the first
failure escapes the comprehension. -/
def resolve_all (argF argB argOut : Option String) :
    List String → Except CliError (List (String × String × String × List String))
  | [] => .ok []
  | fp :: rest => do
    let r ← resolve_pipeline fp argF argB argOut
    let rs ← resolve_all argF argB argOut rest
    .ok ((fp, r) :: rs)

/-- process_pipelines (cli.py lines 784-804) at the step-name level: when
resolution of any input fails, no step of any pipeline executes (the error
escapes before the processing loop starts); otherwise the steps of every
resolved pipeline run in order.  Returns the executed step trace and the
resolution error, if any. -/
def process_pipelines (inputs : List String) (argF argB argOut : Option String) :
    List String × Option CliError :=
  match resolve_all argF argB argOut inputs with
  | .error e => ([], some e)
  | .ok ps => (ps.flatMap (fun p => p.2.2.2), none)

/-- The end-to-end example chunks of spec section 8 property 6. -/
def exampleChunks : JVal :=
  .list [.str "Lemma foo: True.", .str "Proof. trivial. Qed."]

/-- The same chunks with one extra empty chunk. -/
def exampleChunks3 : JVal :=
  .list [.str "Lemma foo: True.", .str "Proof. trivial. Qed.", .str ""]

/-- The end-to-end example configuration of spec section 8 property 6. -/
def exampleConfig : JVal := .dict [("args", .list [])]

theorem jsize_pos (v : JVal) : 1 ≤ jsize v := by
  cases v <;> simp [jsize]

theorem jsize_mem_L {x : JVal} {xs : List JVal} (h : x ∈ xs) : jsize x < jsizeL xs := by
  induction xs with
  | nil => cases h
  | cons y ys ih =>
    rcases List.mem_cons.mp h with rfl | h'
    · simp [jsizeL]; omega
    · have := ih h'; simp [jsizeL]; omega

theorem jsize_mem_D {k : String} {v : JVal} {kvs : List (String × JVal)}
    (h : (k, v) ∈ kvs) : jsize v < jsizeD kvs := by
  induction kvs with
  | nil => cases h
  | cons q qs ih =>
    rcases List.mem_cons.mp h with rfl | h'
    · simp [jsizeD]; omega
    · have := ih h'; obtain ⟨l, w⟩ := q; simp [jsizeD]; omega

theorem charsLe_total {a b : List Char} (h : charsLe a b = false) : charsLe b a = true := by
  induction a generalizing b with
  | nil => simp [charsLe] at h
  | cons x xs ih =>
    cases b with
    | nil => simp [charsLe]
    | cons y ys =>
      simp only [charsLe] at h ⊢
      split at h
      · exact absurd h (by simp)
      · next h1 =>
        split at h
        · next h2 => simp [h2]
        · next h2 =>
          have hxy : y.toNat = x.toNat := by omega
          simp [hxy, ih h]

theorem strLe_total {s t : String} (h : strLe s t = false) : strLe t s = true :=
  charsLe_total h

theorem insertKV_perm (p : String × JVal) (l : List (String × JVal)) :
    (insertKV p l).Perm (p :: l) := by
  induction l with
  | nil => simp [insertKV]
  | cons q qs ih =>
    simp only [insertKV]
    split
    · exact List.Perm.refl _
    · exact (List.Perm.cons q ih).trans (List.Perm.swap p q qs)

theorem sortByKey_perm (l : List (String × JVal)) : (sortByKey l).Perm l := by
  induction l with
  | nil => simp [sortByKey]
  | cons p ps ih =>
    exact (insertKV_perm p (sortByKey ps)).trans (List.Perm.cons p ih)

theorem jsizeD_perm {l₁ l₂ : List (String × JVal)} (h : l₁.Perm l₂) :
    jsizeD l₁ = jsizeD l₂ := by
  induction h with
  | nil => rfl
  | cons x _ ih => obtain ⟨k, v⟩ := x; simp [jsizeD, ih]
  | swap x y l => obtain ⟨k, v⟩ := x; obtain ⟨l', w⟩ := y; simp [jsizeD]; omega
  | trans _ _ ih₁ ih₂ => omega

theorem jsizeD_sortByKey (l : List (String × JVal)) : jsizeD (sortByKey l) = jsizeD l :=
  jsizeD_perm (sortByKey_perm l)

theorem keysSorted_cons {p : String × JVal} {l : List (String × JVal)}
    (hl : keysSorted l = true)
    (hp : ∀ q ∈ l.head?, strLe p.1 q.1 = true) : keysSorted (p :: l) = true := by
  cases l with
  | nil => rfl
  | cons q qs => simp only [keysSorted, Bool.and_eq_true]; exact ⟨hp q rfl, hl⟩

theorem keysSorted_tail {p : String × JVal} {l : List (String × JVal)}
    (h : keysSorted (p :: l) = true) : keysSorted l = true := by
  cases l with
  | nil => rfl
  | cons q qs => simp only [keysSorted, Bool.and_eq_true] at h; exact h.2

theorem keysSorted_insertKV {p : String × JVal} {l : List (String × JVal)}
    (h : keysSorted l = true) : keysSorted (insertKV p l) = true := by
  induction l with
  | nil => rfl
  | cons q qs ih =>
    simp only [insertKV]
    split
    · next hle =>
      exact keysSorted_cons h (by intro r hr; cases qs <;> simp_all)
    · next hgt =>
      have hq : strLe q.1 p.1 = true := strLe_total (by simpa using hgt)
      have htail := ih (keysSorted_tail h)
      refine keysSorted_cons htail ?_
      intro r hr
      cases qs with
      | nil => simp [insertKV] at hr; subst hr; exact hq
      | cons q' qs' =>
        simp only [insertKV] at hr
        split at hr
        · simp at hr; subst hr; exact hq
        · simp at hr; subst hr
          simp only [keysSorted, Bool.and_eq_true] at h
          exact h.1

theorem keysSorted_sortByKey (l : List (String × JVal)) :
    keysSorted (sortByKey l) = true := by
  induction l with
  | nil => rfl
  | cons p ps ih => exact keysSorted_insertKV ih

theorem insertKV_of_le {p : String × JVal} {l : List (String × JVal)}
    (h : ∀ q ∈ l.head?, strLe p.1 q.1 = true) : insertKV p l = p :: l := by
  cases l with
  | nil => rfl
  | cons q qs => simp [insertKV, h q rfl]

theorem sortByKey_fix {l : List (String × JVal)} (h : keysSorted l = true) :
    sortByKey l = l := by
  induction l with
  | nil => rfl
  | cons p ps ih =>
    have htail := keysSorted_tail h
    simp only [sortByKey, ih htail]
    refine insertKV_of_le ?_
    intro q hq
    cases ps with
    | nil => simp at hq
    | cons r rs =>
      simp at hq; subst hq
      simp only [keysSorted, Bool.and_eq_true] at h
      exact h.1

theorem insertKV_map_val (g : JVal → JVal) (p : String × JVal) (l : List (String × JVal)) :
    insertKV (p.1, g p.2) (l.map (fun q => (q.1, g q.2))) =
    (insertKV p l).map (fun q => (q.1, g q.2)) := by
  induction l with
  | nil => rfl
  | cons q qs ih =>
    simp only [List.map, insertKV]
    split <;> simp_all

theorem sortByKey_map_val (g : JVal → JVal) (l : List (String × JVal)) :
    sortByKey (l.map (fun q => (q.1, g q.2))) =
    (sortByKey l).map (fun q => (q.1, g q.2)) := by
  induction l with
  | nil => rfl
  | cons p ps ih => simp only [List.map, sortByKey, ih, insertKV_map_val]

theorem lookupKey_mem {k : String} {v : JVal} {l : List (String × JVal)}
    (h : lookupKey k l = some v) : (k, v) ∈ l := by
  induction l with
  | nil => simp [lookupKey] at h
  | cons q qs ih =>
    obtain ⟨m, w⟩ := q
    simp only [lookupKey] at h
    split at h
    · next he => simp at h; subst he h; exact List.mem_cons_self _ _
    · exact List.mem_cons_of_mem _ (ih h)

theorem nodupKeysB_lookup {k : String} {v : JVal} {l : List (String × JVal)}
    (hd : nodupKeysB l = true) (h : (k, v) ∈ l) : lookupKey k l = some v := by
  induction l with
  | nil => cases h
  | cons q qs ih =>
    obtain ⟨m, w⟩ := q
    simp only [nodupKeysB, Bool.and_eq_true] at hd
    rcases List.mem_cons.mp h with he | h'
    · have h1 : k = m := congrArg Prod.fst he
      have h2 : v = w := congrArg Prod.snd he
      subst h1; subst h2
      simp [lookupKey]
    · have hne : m ≠ k := by
        intro he; subst he
        have hmem : qs.any (fun p => p.1 = m) = true :=
          List.any_eq_true.mpr ⟨(m, v), h', by simp⟩
        simp [hmem] at hd
      simp [lookupKey, hne, ih hd.2 h']

theorem lookupKey_size {k : String} {v : JVal} {l : List (String × JVal)}
    (h : lookupKey k l = some v) : jsize v < jsizeD l :=
  jsize_mem_D (lookupKey_mem h)

theorem lookupKey_none_of_any_false {k : String} {l : List (String × JVal)}
    (h : (l.any (fun p => p.1 = k)) = false) : lookupKey k l = none := by
  induction l with
  | nil => rfl
  | cons q qs ih =>
    obtain ⟨m, w⟩ := q
    simp only [List.any_cons, Bool.or_eq_false_iff] at h
    have hm : m ≠ k := by
      intro he; subst he; simp at h
    simp [lookupKey, hm, ih h.2]

theorem nodupKeysB_iff (l : List (String × JVal)) :
    nodupKeysB l = true ↔ (l.map Prod.fst).Nodup := by
  induction l with
  | nil => simp [nodupKeysB]
  | cons q qs ih =>
    obtain ⟨k, v⟩ := q
    simp only [nodupKeysB, Bool.and_eq_true, List.map, List.nodup_cons, ih]
    constructor
    · rintro ⟨h1, h2⟩
      refine ⟨?_, h2⟩
      intro hm
      obtain ⟨p, hp, hpk⟩ := List.mem_map.mp hm
      have hany : qs.any (fun p => p.1 = k) = true :=
        List.any_eq_true.mpr ⟨p, hp, by simp [hpk]⟩
      rw [hany] at h1
      exact absurd h1 (by simp)
    · rintro ⟨h1, h2⟩
      refine ⟨?_, h2⟩
      rcases hb : qs.any (fun p => p.1 = k) with _ | _
      · simp
      · obtain ⟨p, hp, hpk⟩ := List.any_eq_true.mp hb
        simp only [decide_eq_true_eq] at hpk
        exact absurd (List.mem_map.mpr ⟨p, hp, hpk⟩) h1

theorem nodupKeysB_perm {l₁ l₂ : List (String × JVal)} (h : l₁.Perm l₂) :
    nodupKeysB l₁ = nodupKeysB l₂ := by
  have h1 := nodupKeysB_iff l₁
  have h2 := nodupKeysB_iff l₂
  have h3 := (h.map Prod.fst).nodup_iff
  by_cases hb : nodupKeysB l₁ = true
  · rw [hb]; exact (h2.mpr (h3.mp (h1.mp hb))).symm
  · have hb2 : nodupKeysB l₂ ≠ true := fun hc => hb (h1.mpr (h3.mpr (h2.mp hc)))
    simp only [Bool.not_eq_true] at hb hb2
    rw [hb, hb2]

theorem lookupIdx_get {v : JVal} {l : List JVal} {i : Nat}
    (h : lookupIdx v l = some i) : l.get? i = some v := by
  induction l generalizing i with
  | nil => simp [lookupIdx] at h
  | cons w ws ih =>
    simp only [lookupIdx] at h
    split at h
    · next he => simp at h; subst h; simp [he]
    · cases hl : lookupIdx v ws with
      | none => rw [hl] at h; simp at h
      | some j =>
        rw [hl] at h; simp at h
        subst h; simpa using ih hl

theorem lookupIdx_none {v : JVal} {l : List JVal} (h : lookupIdx v l = none) :
    v ∉ l := by
  induction l with
  | nil => simp
  | cons w ws ih =>
    simp only [lookupIdx] at h
    split at h
    · simp at h
    · next hne =>
      cases hl : lookupIdx v ws with
      | none =>
        intro hm
        rcases List.mem_cons.mp hm with rfl | hm'
        · exact hne rfl
        · exact (ih hl) hm'
      | some j => rw [hl] at h; simp at h

theorem lookupIdx_append_self {v : JVal} {l : List JVal} (h : v ∉ l) :
    lookupIdx v (l ++ [v]) = some l.length := by
  induction l with
  | nil => simp [lookupIdx]
  | cons w ws ih =>
    have hne : w ≠ v := by intro he; exact h (he ▸ List.mem_cons_self _ _)
    have h' : v ∉ ws := fun hm => h (List.mem_cons_of_mem _ hm)
    simp [lookupIdx, hne, ih h']

theorem fieldsOf_nodup (t : ETag) : (fieldsOf t).Nodup := by
  cases t <;> decide

theorem fieldsOf_no_reserved (t : ETag) : ("_type" ∈ fieldsOf t) = False := by
  cases t <;> simp [fieldsOf]

theorem typeOfAlias_aliasOf (t : ETag) : typeOfAlias (aliasOf t) = some t := by
  cases t <;> rfl

theorem aliasOf_truthy (t : ETag) : truthy (.str (aliasOf t)) = true := by
  cases t <;> decide

theorem allUniqL_mem {xs : List JVal} (h : allUniqL xs = true) {x : JVal}
    (hx : x ∈ xs) : allUniq x = true := by
  induction xs with
  | nil => cases hx
  | cons y ys ih =>
    simp only [allUniqL, Bool.and_eq_true] at h
    rcases List.mem_cons.mp hx with rfl | hx'
    · exact h.1
    · exact ih h.2 hx'

theorem allUniqD_mem {l : List (String × JVal)} (h : allUniqD l = true)
    {k : String} {v : JVal} (hx : (k, v) ∈ l) : allUniq v = true := by
  induction l with
  | nil => cases hx
  | cons q qs ih =>
    obtain ⟨m, w⟩ := q
    simp only [allUniqD, Bool.and_eq_true] at h
    rcases List.mem_cons.mp hx with he | hx'
    · have : v = w := congrArg Prod.snd he
      subst this; exact h.1
    · exact ih h.2 hx'

theorem pyEqL_self {xs : List JVal} (h : ∀ x ∈ xs, pyEq x x = true) :
    pyEqL xs xs = true := by
  induction xs with
  | nil => rfl
  | cons y ys ih =>
    simp only [pyEqL, Bool.and_eq_true]
    exact ⟨h y (List.mem_cons_self _ _), ih (fun x hx => h x (List.mem_cons_of_mem _ hx))⟩

theorem pyEqD_of_lookup {l₁ l₂ : List (String × JVal)}
    (h : ∀ p ∈ l₁, ∃ w, lookupKey p.1 l₂ = some w ∧ pyEq p.2 w = true) :
    pyEqD l₁ l₂ = true := by
  induction l₁ with
  | nil => rfl
  | cons q qs ih =>
    obtain ⟨k, v⟩ := q
    obtain ⟨w, hw, hpy⟩ := h (k, v) (List.mem_cons_self _ _)
    simp only [pyEqD, Bool.and_eq_true]
    constructor
    · simp only at hw
      rw [hw]; exact hpy
    · exact ih (fun p hp => h p (List.mem_cons_of_mem _ hp))

theorem pyEq_refl_n : ∀ n, ∀ v : JVal, jsize v ≤ n → allUniq v = true → pyEq v v = true := by
  intro n
  induction n with
  | zero => intro v hv _; have := jsize_pos v; omega
  | succ n ih =>
    intro v hv hu
    cases v with
    | null => rfl
    | int m => simp [pyEq]
    | str s => simp [pyEq]
    | list xs =>
      simp only [pyEq]
      apply pyEqL_self
      intro x hx
      have hs := jsize_mem_L hx
      simp only [jsize] at hv
      exact ih x (by omega) (allUniqL_mem (by simpa [allUniq] using hu) hx)
    | dict kvs =>
      simp only [pyEq, Bool.and_eq_true]
      simp only [allUniq, Bool.and_eq_true] at hu
      refine ⟨by simp, ?_⟩
      apply pyEqD_of_lookup
      intro p hp
      obtain ⟨k, v⟩ := p
      have hs := jsize_mem_D hp
      simp only [jsize] at hv
      exact ⟨v, nodupKeysB_lookup hu.1 hp, ih v (by omega) (allUniqD_mem hu.2 hp)⟩
    | ent t vals =>
      simp only [pyEq, Bool.and_eq_true]
      refine ⟨by simp, ?_⟩
      apply pyEqL_self
      intro x hx
      have hs := jsize_mem_L hx
      simp only [jsize] at hv
      exact ih x (by omega) (allUniqL_mem (by simpa [allUniq] using hu) hx)

theorem pyEq_refl {v : JVal} (hu : allUniq v = true) : pyEq v v = true :=
  pyEq_refl_n (jsize v) v le_rfl hu

theorem pyEq_dict_perm {l' l : List (String × JVal)} (hperm : l'.Perm l)
    (hn : nodupKeysB l = true) (hu : allUniqD l = true) :
    pyEq (.dict l') (.dict l) = true := by
  simp only [pyEq, Bool.and_eq_true]
  refine ⟨by simp [hperm.length_eq], ?_⟩
  apply pyEqD_of_lookup
  intro p hp
  obtain ⟨k, v⟩ := p
  have hmem : (k, v) ∈ l := hperm.mem_iff.mp hp
  exact ⟨v, nodupKeysB_lookup hn hmem, pyEq_refl (allUniqD_mem hu hmem)⟩

theorem canonL_eq_map (xs : List JVal) : canonL xs = xs.map canon := by
  induction xs with
  | nil => rfl
  | cons y ys ih => simp [canonL, ih]

theorem canonD_eq_map (l : List (String × JVal)) :
    canonD l = l.map (fun p => (p.1, canon p.2)) := by
  induction l with
  | nil => rfl
  | cons q qs ih => obtain ⟨k, v⟩ := q; simp [canonD, ih]

theorem pyEqL_map_of {g : JVal → JVal} {ys : List JVal}
    (h : ∀ y ∈ ys, pyEq (g y) y = true) : pyEqL (ys.map g) ys = true := by
  induction ys with
  | nil => rfl
  | cons y ys ih =>
    simp only [List.map, pyEqL, Bool.and_eq_true]
    exact ⟨h y (List.mem_cons_self _ _), ih (fun x hx => h x (List.mem_cons_of_mem _ hx))⟩

theorem pyEq_canon_n : ∀ n, ∀ v : JVal, jsize v ≤ n → allUniq v = true →
    pyEq (canon v) v = true := by
  intro n
  induction n with
  | zero => intro v hv _; have := jsize_pos v; omega
  | succ n ih =>
    intro v hv hu
    cases v with
    | null => rfl
    | int m => simp [canon, pyEq]
    | str s => simp [canon, pyEq]
    | list xs =>
      simp only [canon, pyEq, canonL_eq_map]
      apply pyEqL_map_of
      intro x hx
      have hs := jsize_mem_L hx
      simp only [jsize] at hv
      exact ih x (by omega) (allUniqL_mem (by simpa [allUniq] using hu) hx)
    | dict kvs =>
      simp only [canon, pyEq, Bool.and_eq_true]
      simp only [allUniq, Bool.and_eq_true] at hu
      constructor
      · rw [(sortByKey_perm (canonD kvs)).length_eq, canonD_eq_map, List.length_map]
        simp
      · apply pyEqD_of_lookup
        intro p hp
        have hp' : p ∈ canonD kvs := (sortByKey_perm (canonD kvs)).mem_iff.mp hp
        rw [canonD_eq_map] at hp'
        obtain ⟨q, hq, he⟩ := List.mem_map.mp hp'
        obtain ⟨k, v⟩ := q
        subst he
        have hs := jsize_mem_D hq
        simp only [jsize] at hv
        exact ⟨v, nodupKeysB_lookup hu.1 hq,
               ih v (by omega) (allUniqD_mem hu.2 hq)⟩
    | ent t vals =>
      simp only [canon, pyEq, Bool.and_eq_true, canonL_eq_map]
      refine ⟨by simp, ?_⟩
      apply pyEqL_map_of
      intro x hx
      have hs := jsize_mem_L hx
      simp only [jsize] at hv
      exact ih x (by omega) (allUniqL_mem (by simpa [allUniq] using hu) hx)

theorem pyEq_canon {v : JVal} (hu : allUniq v = true) : pyEq (canon v) v = true :=
  pyEq_canon_n (jsize v) v le_rfl hu

theorem canonD_fix {l : List (String × JVal)} (h : ∀ p ∈ l, canon p.2 = p.2) :
    canonD l = l := by
  induction l with
  | nil => rfl
  | cons q qs ih =>
    obtain ⟨k, v⟩ := q
    simp only [canonD]
    rw [h (k, v) (List.mem_cons_self _ _), ih (fun p hp => h p (List.mem_cons_of_mem _ hp))]

theorem canonL_fix {xs : List JVal} (h : ∀ x ∈ xs, canon x = x) : canonL xs = xs := by
  induction xs with
  | nil => rfl
  | cons y ys ih =>
    simp only [canonL]
    rw [h y (List.mem_cons_self _ _), ih (fun x hx => h x (List.mem_cons_of_mem _ hx))]

theorem allKeySortedL_mem {xs : List JVal} (h : allKeySortedL xs = true) {x : JVal}
    (hx : x ∈ xs) : allKeySorted x = true := by
  induction xs with
  | nil => cases hx
  | cons y ys ih =>
    simp only [allKeySortedL, Bool.and_eq_true] at h
    rcases List.mem_cons.mp hx with rfl | hx'
    · exact h.1
    · exact ih h.2 hx'

theorem allKeySortedD_mem {l : List (String × JVal)} (h : allKeySortedD l = true)
    {k : String} {v : JVal} (hx : (k, v) ∈ l) : allKeySorted v = true := by
  induction l with
  | nil => cases hx
  | cons q qs ih =>
    obtain ⟨m, w⟩ := q
    simp only [allKeySortedD, Bool.and_eq_true] at h
    rcases List.mem_cons.mp hx with he | hx'
    · have : v = w := congrArg Prod.snd he
      subst this; exact h.1
    · exact ih h.2 hx'

theorem canon_fix_n : ∀ n, ∀ v : JVal, jsize v ≤ n → allKeySorted v = true →
    canon v = v := by
  intro n
  induction n with
  | zero => intro v hv _; have := jsize_pos v; omega
  | succ n ih =>
    intro v hv hs
    cases v with
    | null => rfl
    | int m => rfl
    | str s => rfl
    | list xs =>
      simp only [canon, JVal.list.injEq]
      apply canonL_fix
      intro x hx
      have hsz := jsize_mem_L hx
      simp only [jsize] at hv
      exact ih x (by omega) (allKeySortedL_mem (by simpa [allKeySorted] using hs) hx)
    | dict kvs =>
      simp only [allKeySorted, Bool.and_eq_true] at hs
      simp only [canon]
      have hc : canonD kvs = kvs := by
        apply canonD_fix
        intro p hp
        obtain ⟨k, v⟩ := p
        have hsz := jsize_mem_D hp
        simp only [jsize] at hv
        exact ih v (by omega) (allKeySortedD_mem hs.2 hp)
      rw [hc, sortByKey_fix hs.1]
    | ent t vals =>
      simp only [canon, JVal.ent.injEq]
      refine ⟨trivial, ?_⟩
      apply canonL_fix
      intro x hx
      have hsz := jsize_mem_L hx
      simp only [jsize] at hv
      exact ih x (by omega) (allKeySortedL_mem (by simpa [allKeySorted] using hs) hx)

theorem canon_fix {v : JVal} (hs : allKeySorted v = true) : canon v = v :=
  canon_fix_n (jsize v) v le_rfl hs

theorem plain_encodeL_length : ∀ {xs ws : List JVal},
    PlainSerializer.encodeL xs = some ws → ws.length = xs.length := by
  intro xs
  induction xs with
  | nil => intro ws h; simp [PlainSerializer.encodeL] at h; subst h; rfl
  | cons x xs ih =>
    intro ws h
    simp only [PlainSerializer.encodeL, Option.pure_def, Option.bind_eq_bind,
      Option.bind_eq_some, Option.some.injEq] at h
    obtain ⟨w, hw, ws', hws', he⟩ := h
    subst he
    simp [ih hws']

theorem mapM_lookup_cons {fs : List String} {f : String} {v : JVal}
    {rest : List (String × JVal)} (h : f ∉ fs) :
    fs.mapM (fun k => lookupKey k ((f, v) :: rest)) =
    fs.mapM (fun k => lookupKey k rest) := by
  induction fs with
  | nil => rfl
  | cons g gs ih =>
    have hfg : f ≠ g := fun he => h (he ▸ List.mem_cons_self _ _)
    have h' : f ∉ gs := fun hm => h (List.mem_cons_of_mem _ hm)
    simp only [List.mapM_cons]
    rw [ih h']
    have hlg : lookupKey g ((f, v) :: rest) = lookupKey g rest := by
      simp [lookupKey, hfg]
    rw [hlg]

theorem kwargsBuild_zip : ∀ {fields : List String} {vals : List JVal},
    fields.Nodup → vals.length = fields.length →
    kwargsBuild fields (fields.zip vals) = some vals := by
  intro fields
  induction fields with
  | nil =>
    intro vals _ hl
    cases vals with
    | nil => rfl
    | cons v vs => simp at hl
  | cons f fs ih =>
    intro vals hnd hl
    cases vals with
    | nil => simp at hl
    | cons v vs =>
      simp only [List.length_cons, Nat.succ.injEq] at hl
      have hnd' := List.nodup_cons.mp hnd
      simp only [kwargsBuild, List.zip_cons_cons]
      have hlen : ((f, v) :: fs.zip vs).length = (f :: fs).length := by
        simp [List.length_zip, hl]
      rw [if_pos hlen]
      simp only [List.mapM_cons]
      rw [mapM_lookup_cons hnd'.1]
      have hhead : lookupKey f ((f, v) :: fs.zip vs) = some v := by
        simp [lookupKey]
      rw [hhead]
      have htail : fs.mapM (fun k => lookupKey k (fs.zip vs)) = some vs := by
        have hih := @ih vs hnd'.2 hl
        simp only [kwargsBuild] at hih
        rw [if_pos (by simp [List.length_zip, hl])] at hih
        exact hih
      rw [htail]
      rfl

theorem plain_decodeD_zip : ∀ (ks : List String) {ws vs : List JVal},
    PlainSerializer.decodeL ws = some vs →
    PlainSerializer.decodeD (ks.zip ws) = some (ks.zip vs) := by
  intro ks
  induction ks with
  | nil => intro ws vs _; simp [PlainSerializer.decodeD]
  | cons k ks ih =>
    intro ws vs h
    cases ws with
    | nil =>
      simp only [PlainSerializer.decodeL] at h
      have hv : vs = [] := by simpa using h.symm
      subst hv
      simp [PlainSerializer.decodeD]
    | cons w ws' =>
      simp only [PlainSerializer.decodeL, Option.pure_def, Option.bind_eq_bind,
        Option.bind_eq_some, Option.some.injEq] at h
      obtain ⟨v1, hv1, vs', hvs', he⟩ := h
      subst he
      show PlainSerializer.decodeD ((k, w) :: ks.zip ws') = some ((k, v1) :: ks.zip vs')
      simp only [PlainSerializer.decodeD, Option.pure_def, Option.bind_eq_bind, hv1,
        Option.some_bind, ih hvs']

mutual
theorem plainRT_V : ∀ (v w : JVal), wfArity v = true →
    PlainSerializer.encodeV v = some w → PlainSerializer.decodeV w = some v
  | .null, w => by
    intro _ h
    simp only [PlainSerializer.encodeV, Option.some.injEq] at h
    subst h; rfl
  | .int n, w => by
    intro _ h
    simp only [PlainSerializer.encodeV, Option.some.injEq] at h
    subst h; rfl
  | .str s, w => by
    intro _ h
    simp only [PlainSerializer.encodeV, Option.some.injEq] at h
    subst h; rfl
  | .list xs, w => by
    intro hwf h
    simp only [PlainSerializer.encodeV] at h
    cases hL : PlainSerializer.encodeL xs with
    | none => rw [hL] at h; simp at h
    | some ws =>
      rw [hL] at h
      simp only [Option.map_some', Option.some.injEq] at h
      subst h
      simp only [PlainSerializer.decodeV,
        plainRT_L xs ws (by simpa [wfArity] using hwf) hL, Option.map_some']
  | .dict kvs, w => by
    intro hwf h
    simp only [PlainSerializer.encodeV] at h
    split at h
    · simp at h
    · next hchk =>
      cases hD : PlainSerializer.encodeD kvs with
      | none => rw [hD] at h; simp at h
      | some pws =>
        rw [hD] at h
        simp only [Option.map_some', Option.some.injEq] at h
        subst h
        have hkeys : PlainSerializer.decodeD pws = some kvs :=
          plainRT_D kvs pws (by simpa [wfArity] using hwf) hD
        have hnone : lookupKey "_type" kvs = none :=
          lookupKey_none_of_any_false (Bool.eq_false_iff.mpr hchk)
        simp only [PlainSerializer.decodeV, Option.pure_def, Option.bind_eq_bind,
          hkeys, Option.some_bind, hnone]
  | .ent t vals, w => by
    intro hwf h
    simp only [PlainSerializer.encodeV] at h
    cases hL : PlainSerializer.encodeL vals with
    | none => rw [hL] at h; simp at h
    | some ws =>
      rw [hL] at h
      simp only [Option.map_some', Option.some.injEq] at h
      subst h
      simp only [wfArity, Bool.and_eq_true, beq_iff_eq] at hwf
      have hdec : PlainSerializer.decodeL ws = some vals := plainRT_L vals ws hwf.2 hL
      have h1 : PlainSerializer.decodeD (("_type", JVal.str (aliasOf t)) :: (fieldsOf t).zip ws)
          = some (("_type", JVal.str (aliasOf t)) :: (fieldsOf t).zip vals) := by
        simp only [PlainSerializer.decodeD, PlainSerializer.decodeV, Option.pure_def,
          Option.bind_eq_bind, Option.some_bind, plain_decodeD_zip _ hdec]
      have h2 : lookupKey "_type" (("_type", JVal.str (aliasOf t)) :: (fieldsOf t).zip vals)
          = some (JVal.str (aliasOf t)) := by
        simp [lookupKey]
      have h3 : removeKey "_type" (("_type", JVal.str (aliasOf t)) :: (fieldsOf t).zip vals)
          = (fieldsOf t).zip vals := by
        simp [removeKey]
      have h4 : kwargsBuild (fieldsOf t) ((fieldsOf t).zip vals) = some vals :=
        kwargsBuild_zip (fieldsOf_nodup t) hwf.1
      simp only [PlainSerializer.decodeV, Option.pure_def, Option.bind_eq_bind, h1,
        Option.some_bind, h2, h3, aliasOf_truthy, if_true, typeOfAlias_aliasOf, h4,
        Option.map_some']
theorem plainRT_L : ∀ (xs ws : List JVal), wfArityL xs = true →
    PlainSerializer.encodeL xs = some ws → PlainSerializer.decodeL ws = some xs
  | [], ws => by
    intro _ h
    simp only [PlainSerializer.encodeL, Option.some.injEq] at h
    subst h; rfl
  | x :: xs, ws => by
    intro hwf h
    simp only [PlainSerializer.encodeL, Option.pure_def, Option.bind_eq_bind,
      Option.bind_eq_some, Option.some.injEq] at h
    obtain ⟨w, hw, ws', hws', he⟩ := h
    subst he
    simp only [wfArityL, Bool.and_eq_true] at hwf
    simp only [PlainSerializer.decodeL, Option.pure_def, Option.bind_eq_bind,
      plainRT_V x w hwf.1 hw, plainRT_L xs ws' hwf.2 hws', Option.some_bind]
theorem plainRT_D : ∀ (kvs pws : List (String × JVal)), wfArityD kvs = true →
    PlainSerializer.encodeD kvs = some pws → PlainSerializer.decodeD pws = some kvs
  | [], pws => by
    intro _ h
    simp only [PlainSerializer.encodeD, Option.some.injEq] at h
    subst h; rfl
  | (k, v) :: kvs, pws => by
    intro hwf h
    simp only [PlainSerializer.encodeD, Option.pure_def, Option.bind_eq_bind,
      Option.bind_eq_some, Option.some.injEq] at h
    obtain ⟨w, hw, pws', hpws', he⟩ := h
    subst he
    simp only [wfArityD, Bool.and_eq_true] at hwf
    simp only [PlainSerializer.decodeD, Option.pure_def, Option.bind_eq_bind,
      plainRT_V v w hwf.1 hw, plainRT_D kvs pws' hwf.2 hpws', Option.some_bind]
end

mutual
theorem plainB_V : ∀ v : JVal, hasBadT v = true → PlainSerializer.encodeV v = none
  | .null => by intro h; simp [hasBadT] at h
  | .int n => by intro h; simp [hasBadT] at h
  | .str s => by intro h; simp [hasBadT] at h
  | .list xs => by
    intro h
    simp only [hasBadT] at h
    simp [PlainSerializer.encodeV, plainB_L xs h]
  | .dict kvs => by
    intro h
    simp only [hasBadT, Bool.or_eq_true] at h
    simp only [PlainSerializer.encodeV]
    rcases h with h | h
    · rw [if_pos h]
    · split
      · rfl
      · rw [plainB_D kvs h]; rfl
  | .ent t vals => by
    intro h
    simp only [hasBadT] at h
    simp [PlainSerializer.encodeV, plainB_L vals h]
theorem plainB_L : ∀ xs : List JVal, hasBadTL xs = true → PlainSerializer.encodeL xs = none
  | [] => by intro h; simp [hasBadTL] at h
  | x :: xs => by
    intro h
    simp only [hasBadTL, Bool.or_eq_true] at h
    simp only [PlainSerializer.encodeL]
    rcases h with h | h
    · rw [plainB_V x h]; rfl
    · cases hx : PlainSerializer.encodeV x with
      | none => rfl
      | some w => simp [plainB_L xs h]
theorem plainB_D : ∀ kvs : List (String × JVal), hasBadTD kvs = true →
    PlainSerializer.encodeD kvs = none
  | [] => by intro h; simp [hasBadTD] at h
  | (k, v) :: kvs => by
    intro h
    simp only [hasBadTD, Bool.or_eq_true] at h
    simp only [PlainSerializer.encodeD]
    rcases h with h | h
    · rw [plainB_V v h]; rfl
    · cases hx : PlainSerializer.encodeV v with
      | none => rfl
      | some w => simp [plainB_D kvs h]
end

mutual
theorem plainS_V : ∀ v : JVal, hasBadT v = false → ∃ w, PlainSerializer.encodeV v = some w
  | .null => fun _ => ⟨_, rfl⟩
  | .int n => fun _ => ⟨_, rfl⟩
  | .str s => fun _ => ⟨_, rfl⟩
  | .list xs => by
    intro h
    obtain ⟨ws, hws⟩ := plainS_L xs (by simpa [hasBadT] using h)
    exact ⟨.list ws, by simp [PlainSerializer.encodeV, hws]⟩
  | .dict kvs => by
    intro h
    simp only [hasBadT, Bool.or_eq_false_iff] at h
    obtain ⟨pws, hpws⟩ := plainS_D kvs h.2
    refine ⟨.dict pws, ?_⟩
    simp only [PlainSerializer.encodeV, h.1, hpws]
    rfl
  | .ent t vals => by
    intro h
    obtain ⟨ws, hws⟩ := plainS_L vals (by simpa [hasBadT] using h)
    exact ⟨.dict (("_type", .str (aliasOf t)) :: (fieldsOf t).zip ws),
           by simp [PlainSerializer.encodeV, hws]⟩
theorem plainS_L : ∀ xs : List JVal, hasBadTL xs = false →
    ∃ ws, PlainSerializer.encodeL xs = some ws
  | [] => fun _ => ⟨[], rfl⟩
  | x :: xs => by
    intro h
    simp only [hasBadTL, Bool.or_eq_false_iff] at h
    obtain ⟨w, hw⟩ := plainS_V x h.1
    obtain ⟨ws, hws⟩ := plainS_L xs h.2
    exact ⟨w :: ws, by simp [PlainSerializer.encodeL, hw, hws]⟩
theorem plainS_D : ∀ kvs : List (String × JVal), hasBadTD kvs = false →
    ∃ pws, PlainSerializer.encodeD kvs = some pws
  | [] => fun _ => ⟨[], rfl⟩
  | (k, v) :: kvs => by
    intro h
    simp only [hasBadTD, Bool.or_eq_false_iff] at h
    obtain ⟨w, hw⟩ := plainS_V v h.1
    obtain ⟨pws, hpws⟩ := plainS_D kvs h.2
    exact ⟨(k, w) :: pws, by simp [PlainSerializer.encodeD, hw, hpws]⟩
end

theorem dEncLF_nil (f : Nat) (tbl : List JVal) : dEncLF f [] tbl = some ([], tbl) := by
  cases f <;> rfl

theorem dEncDF_nil (f : Nat) (tbl : List JVal) : dEncDF f [] tbl = some ([], tbl) := by
  cases f <;> rfl

theorem dDecLF_nil (f : Nat) (c : Bool) (tbl : List JVal) :
    dDecLF f c [] tbl = some ([], tbl) := by
  cases f <;> rfl

theorem dDecDF_nil (f : Nat) (c : Bool) (tbl : List JVal) :
    dDecDF f c [] tbl = some ([], tbl) := by
  cases f <;> rfl

theorem fEncLF_nil (f : Nat) (tbl : List JVal) : fEncLF f [] tbl = some ([], tbl) := by
  cases f <;> rfl

theorem fEncDF_nil (f : Nat) (tbl : List JVal) : fEncDF f [] tbl = some ([], tbl) := by
  cases f <;> rfl

theorem fDecLF_nil (f : Nat) (c : Bool) (tbl : List JVal) :
    fDecLF f c [] tbl = some ([], tbl) := by
  cases f <;> rfl

theorem fDecDF_nil (f : Nat) (c : Bool) (tbl : List JVal) :
    fDecDF f c [] tbl = some ([], tbl) := by
  cases f <;> rfl

theorem jsizeL_eq_zero {xs : List JVal} (h : jsizeL xs = 0) : xs = [] := by
  cases xs with
  | nil => rfl
  | cons x xs =>
    exfalso
    simp only [jsizeL] at h
    omega

theorem jsizeD_eq_zero {kvs : List (String × JVal)} (h : jsizeD kvs = 0) : kvs = [] := by
  cases kvs with
  | nil => rfl
  | cons q qs =>
    exfalso
    obtain ⟨k, v⟩ := q
    simp only [jsizeD] at h
    omega

theorem hasBadSL_eq_false_iff {xs : List JVal} :
    hasBadSL xs = false ↔ ∀ x ∈ xs, hasBadS x = false := by
  induction xs with
  | nil => simp [hasBadSL]
  | cons y ys ih =>
    simp only [hasBadSL, Bool.or_eq_false_iff, ih, List.mem_cons]
    constructor
    · rintro ⟨h1, h2⟩ x (rfl | hx)
      · exact h1
      · exact h2 x hx
    · intro h
      exact ⟨h y (Or.inl rfl), fun x hx => h x (Or.inr hx)⟩

theorem hasBadSD_eq_false_iff {l : List (String × JVal)} :
    hasBadSD l = false ↔ ∀ p ∈ l, hasBadS p.2 = false := by
  induction l with
  | nil => simp [hasBadSD]
  | cons q qs ih =>
    obtain ⟨k, v⟩ := q
    simp only [hasBadSD, Bool.or_eq_false_iff, ih, List.mem_cons]
    constructor
    · rintro ⟨h1, h2⟩ p (rfl | hp)
      · exact h1
      · exact h2 p hp
    · intro h
      exact ⟨h (k, v) (Or.inl rfl), fun p hp => h p (Or.inr hp)⟩

theorem hasBadSD_perm {l₁ l₂ : List (String × JVal)} (h : l₁.Perm l₂) :
    hasBadSD l₁ = hasBadSD l₂ := by
  rcases hb : hasBadSD l₂ with _ | _
  · rw [hasBadSD_eq_false_iff]
    intro p hp
    exact hasBadSD_eq_false_iff.mp hb p (h.mem_iff.mp hp)
  · rcases hc : hasBadSD l₁ with _ | _
    · exfalso
      have : hasBadSD l₂ = false := by
        rw [hasBadSD_eq_false_iff]
        intro p hp
        exact hasBadSD_eq_false_iff.mp hc p (h.mem_iff.mpr hp)
      rw [this] at hb; cases hb
    · rfl

theorem wfArityL_iff {xs : List JVal} :
    wfArityL xs = true ↔ ∀ x ∈ xs, wfArity x = true := by
  induction xs with
  | nil => simp [wfArityL]
  | cons y ys ih =>
    simp only [wfArityL, Bool.and_eq_true, ih, List.mem_cons]
    constructor
    · rintro ⟨h1, h2⟩ x (rfl | hx)
      · exact h1
      · exact h2 x hx
    · intro h
      exact ⟨h y (Or.inl rfl), fun x hx => h x (Or.inr hx)⟩

theorem wfArityD_iff {l : List (String × JVal)} :
    wfArityD l = true ↔ ∀ p ∈ l, wfArity p.2 = true := by
  induction l with
  | nil => simp [wfArityD]
  | cons q qs ih =>
    obtain ⟨k, v⟩ := q
    simp only [wfArityD, Bool.and_eq_true, ih, List.mem_cons]
    constructor
    · rintro ⟨h1, h2⟩ p (rfl | hp)
      · exact h1
      · exact h2 p hp
    · intro h
      exact ⟨h (k, v) (Or.inl rfl), fun p hp => h p (Or.inr hp)⟩

theorem wfArityD_perm {l₁ l₂ : List (String × JVal)} (h : l₁.Perm l₂)
    (hw : wfArityD l₁ = true) : wfArityD l₂ = true := by
  rw [wfArityD_iff]
  intro p hp
  exact wfArityD_iff.mp hw p (h.mem_iff.mpr hp)

theorem dEncDF_keys : ∀ (f : Nat) {kvs : List (String × JVal)} {tbl : List JVal}
    {pws : List (String × JVal)} {tbl' : List JVal},
    dEncDF f kvs tbl = some (pws, tbl') → pws.map Prod.fst = kvs.map Prod.fst := by
  intro f
  induction f with
  | zero =>
    intro kvs tbl pws tbl' h
    cases kvs with
    | nil => rw [dEncDF_nil] at h; simp at h; simp [h.1]
    | cons q qs => obtain ⟨k, v⟩ := q; simp [dEncDF] at h
  | succ f ih =>
    intro kvs tbl pws tbl' h
    cases kvs with
    | nil => rw [dEncDF_nil] at h; simp at h; simp [h.1]
    | cons q qs =>
      obtain ⟨k, v⟩ := q
      simp only [dEncDF, Option.pure_def, Option.bind_eq_bind, Option.bind_eq_some,
        Option.some.injEq] at h
      obtain ⟨p, hp, q', hq', he⟩ := h
      have h1 : pws = (k, p.1) :: q'.1 := congrArg Prod.fst he.symm
      subst h1
      simp [ih hq']

theorem fEncDF_keys : ∀ (f : Nat) {kvs : List (String × JVal)} {tbl : List JVal}
    {pws : List (String × JVal)} {tbl' : List JVal},
    fEncDF f kvs tbl = some (pws, tbl') → pws.map Prod.fst = kvs.map Prod.fst := by
  intro f
  induction f with
  | zero =>
    intro kvs tbl pws tbl' h
    cases kvs with
    | nil => rw [fEncDF_nil] at h; simp at h; simp [h.1]
    | cons q qs => obtain ⟨k, v⟩ := q; simp [fEncDF] at h
  | succ f ih =>
    intro kvs tbl pws tbl' h
    cases kvs with
    | nil => rw [fEncDF_nil] at h; simp at h; simp [h.1]
    | cons q qs =>
      obtain ⟨k, v⟩ := q
      simp only [fEncDF, Option.pure_def, Option.bind_eq_bind, Option.bind_eq_some,
        Option.some.injEq] at h
      obtain ⟨p, hp, q', hq', he⟩ := h
      have h1 : pws = (k, p.1) :: q'.1 := congrArg Prod.fst he.symm
      subst h1
      simp [ih hq']

theorem hasKey_eq_false_iff {k : String} {l : List (String × JVal)} :
    hasKey k l = false ↔ ∀ p ∈ l, p.1 ≠ k := by
  constructor
  · intro h p hp hpk
    have ht : hasKey k l = true := by
      simp only [hasKey]
      exact List.any_eq_true.mpr ⟨p, hp, by simp [hpk]⟩
    rw [h] at ht; cases ht
  · intro h
    rcases hb : hasKey k l with _ | _
    · rfl
    · simp only [hasKey] at hb
      obtain ⟨p, hp, hpk⟩ := List.any_eq_true.mp hb
      simp only [decide_eq_true_eq] at hpk
      exact absurd hpk (h p hp)

theorem hasKey_of_keys_eq {k : String} {l₁ l₂ : List (String × JVal)}
    (h : l₁.map Prod.fst = l₂.map Prod.fst) : hasKey k l₁ = hasKey k l₂ := by
  induction l₁ generalizing l₂ with
  | nil =>
    cases l₂ with
    | nil => rfl
    | cons q qs => simp at h
  | cons p ps ih =>
    cases l₂ with
    | nil => simp at h
    | cons q qs =>
      simp only [List.map, List.cons.injEq] at h
      have hh1 : hasKey k (p :: ps) = (decide (p.1 = k) || hasKey k ps) := by
        simp [hasKey, List.any_cons]
      have hh2 : hasKey k (q :: qs) = (decide (q.1 = k) || hasKey k qs) := by
        simp [hasKey, List.any_cons]
      rw [hh1, hh2, h.1, ih h.2]

theorem hasKey_perm {k : String} {l₁ l₂ : List (String × JVal)} (h : l₁.Perm l₂) :
    hasKey k l₁ = hasKey k l₂ := by
  rcases hb : hasKey k l₂ with _ | _
  · rw [hasKey_eq_false_iff]
    intro p hp
    exact hasKey_eq_false_iff.mp hb p (h.mem_iff.mp hp)
  · rcases hc : hasKey k l₁ with _ | _
    · exfalso
      have : hasKey k l₂ = false := by
        rw [hasKey_eq_false_iff]
        intro p hp
        exact hasKey_eq_false_iff.mp hc p (h.mem_iff.mpr hp)
      rw [this] at hb; cases hb
    · rfl

theorem keysSorted_of_keys_eq : ∀ {l₁ l₂ : List (String × JVal)},
    l₁.map Prod.fst = l₂.map Prod.fst → keysSorted l₁ = keysSorted l₂ := by
  intro l₁
  induction l₁ with
  | nil =>
    intro l₂ h
    cases l₂ with
    | nil => rfl
    | cons q qs => simp at h
  | cons p ps ih =>
    intro l₂ h
    cases l₂ with
    | nil => simp at h
    | cons q qs =>
      simp only [List.map, List.cons.injEq] at h
      cases ps with
      | nil =>
        cases qs with
        | nil => rfl
        | cons q2 qs2 => simp at h
      | cons p2 ps2 =>
        cases qs with
        | nil => simp at h
        | cons q2 qs2 =>
          have h2 : p2.1 = q2.1 := by
            have := h.2
            simp only [List.map, List.cons.injEq] at this
            exact this.1
          simp only [keysSorted, h.1, h2, ih h.2]

theorem dEnc_S : ∀ f : Nat,
    (∀ v tbl, jsize v ≤ f → hasBadS v = false → ∃ r, dEncF f v tbl = some r) ∧
    (∀ xs tbl, jsizeL xs ≤ f → hasBadSL xs = false → ∃ r, dEncLF f xs tbl = some r) ∧
    (∀ kvs tbl, jsizeD kvs ≤ f → hasBadSD kvs = false → ∃ r, dEncDF f kvs tbl = some r) := by
  intro f
  induction f with
  | zero =>
    refine ⟨?_, ?_, ?_⟩
    · intro v tbl hs _
      exfalso; have := jsize_pos v; omega
    · intro xs tbl hs _
      have hx : xs = [] := jsizeL_eq_zero (Nat.le_zero.mp hs)
      subst hx
      exact ⟨_, dEncLF_nil 0 tbl⟩
    · intro kvs tbl hs _
      have hx : kvs = [] := jsizeD_eq_zero (Nat.le_zero.mp hs)
      subst hx
      exact ⟨_, dEncDF_nil 0 tbl⟩
  | succ f ih =>
    obtain ⟨ihV, ihL, ihD⟩ := ih
    refine ⟨?_, ?_, ?_⟩
    · intro v tbl hs hb
      cases v with
      | null => exact ⟨_, rfl⟩
      | int n => exact ⟨_, rfl⟩
      | str s => exact ⟨_, rfl⟩
      | list xs =>
        simp only [jsize] at hs
        simp only [hasBadS] at hb
        obtain ⟨r, hr⟩ := ihL xs tbl (by omega) hb
        exact ⟨(.list r.1, r.2), by simp [dEncF, hr]⟩
      | dict kvs =>
        simp only [jsize] at hs
        simp only [hasBadS, Bool.or_eq_false_iff] at hb
        obtain ⟨r, hr⟩ := ihD (sortByKey kvs) tbl
          (by rw [jsizeD_sortByKey]; omega)
          (by rw [hasBadSD_perm (sortByKey_perm kvs)]; exact hb.2)
        exact ⟨(.dict r.1, r.2), by simp [dEncF, hb.1, hr]⟩
      | ent t vals =>
        cases hL : lookupIdx (.ent t vals) tbl with
        | some i =>
          exact ⟨(.dict [("*", .int i)], tbl), by simp [dEncF, hL]⟩
        | none =>
          simp only [jsize] at hs
          simp only [hasBadS] at hb
          obtain ⟨r, hr⟩ := ihL vals tbl (by omega) hb
          exact ⟨(.dict [("&", .str (aliasOf t)), ("_", .list r.1)], r.2 ++ [.ent t vals]),
                 by simp [dEncF, hL, hr]⟩
    · intro xs tbl hs hb
      cases xs with
      | nil => exact ⟨_, dEncLF_nil _ tbl⟩
      | cons x xs =>
        simp only [jsizeL] at hs
        simp only [hasBadSL, Bool.or_eq_false_iff] at hb
        obtain ⟨⟨w, t1⟩, hw⟩ := ihV x tbl (by omega) hb.1
        obtain ⟨⟨ws, t2⟩, hws⟩ := ihL xs t1 (by omega) hb.2
        exact ⟨(w :: ws, t2), by simp [dEncLF, hw, hws]⟩
    · intro kvs tbl hs hb
      cases kvs with
      | nil => exact ⟨_, dEncDF_nil _ tbl⟩
      | cons q qs =>
        obtain ⟨k, v⟩ := q
        simp only [jsizeD] at hs
        simp only [hasBadSD, Bool.or_eq_false_iff] at hb
        obtain ⟨⟨w, t1⟩, hw⟩ := ihV v tbl (by omega) hb.1
        obtain ⟨⟨ws, t2⟩, hws⟩ := ihD qs t1 (by omega) hb.2
        exact ⟨((k, w) :: ws, t2), by simp [dEncDF, hw, hws]⟩

theorem fEnc_S : ∀ f : Nat,
    (∀ v tbl, jsize v ≤ f → hasBadS v = false → ∃ r, fEncF f v tbl = some r) ∧
    (∀ xs tbl, jsizeL xs ≤ f → hasBadSL xs = false → ∃ r, fEncLF f xs tbl = some r) ∧
    (∀ kvs tbl, jsizeD kvs ≤ f → hasBadSD kvs = false → ∃ r, fEncDF f kvs tbl = some r) := by
  intro f
  induction f with
  | zero =>
    refine ⟨?_, ?_, ?_⟩
    · intro v tbl hs _
      exfalso; have := jsize_pos v; omega
    · intro xs tbl hs _
      have hx : xs = [] := jsizeL_eq_zero (Nat.le_zero.mp hs)
      subst hx
      exact ⟨_, fEncLF_nil 0 tbl⟩
    · intro kvs tbl hs _
      have hx : kvs = [] := jsizeD_eq_zero (Nat.le_zero.mp hs)
      subst hx
      exact ⟨_, fEncDF_nil 0 tbl⟩
  | succ f ih =>
    obtain ⟨ihV, ihL, ihD⟩ := ih
    refine ⟨?_, ?_, ?_⟩
    · intro v tbl hs hb
      cases hL : lookupIdx v tbl with
      | some i =>
        exact ⟨(.dict [("*", .int i)], tbl), by simp [fEncF, hL]⟩
      | none =>
        cases v with
        | null => exact ⟨(.null, tbl ++ [.null]), by simp [fEncF, hL]⟩
        | int n => exact ⟨(.int n, tbl ++ [.int n]), by simp [fEncF, hL]⟩
        | str s => exact ⟨(.str s, tbl ++ [.str s]), by simp [fEncF, hL]⟩
        | list xs =>
          simp only [jsize] at hs
          simp only [hasBadS] at hb
          obtain ⟨r, hr⟩ := ihL xs tbl (by omega) hb
          exact ⟨(.list r.1, r.2 ++ [.list xs]), by simp [fEncF, hL, hr]⟩
        | dict kvs =>
          simp only [jsize] at hs
          simp only [hasBadS, Bool.or_eq_false_iff] at hb
          obtain ⟨r, hr⟩ := ihD (sortByKey kvs) tbl
            (by rw [jsizeD_sortByKey]; omega)
            (by rw [hasBadSD_perm (sortByKey_perm kvs)]; exact hb.2)
          exact ⟨(.dict r.1, r.2 ++ [.dict kvs]), by simp [fEncF, hL, hb.1, hr]⟩
        | ent t vals =>
          simp only [jsize] at hs
          simp only [hasBadS] at hb
          obtain ⟨r, hr⟩ := ihL vals tbl (by omega) hb
          exact ⟨(.dict [("&", .str (aliasOf t)), ("_", .list r.1)], r.2 ++ [.ent t vals]),
                 by simp [fEncF, hL, hr]⟩
    · intro xs tbl hs hb
      cases xs with
      | nil => exact ⟨_, fEncLF_nil _ tbl⟩
      | cons x xs =>
        simp only [jsizeL] at hs
        simp only [hasBadSL, Bool.or_eq_false_iff] at hb
        obtain ⟨⟨w, t1⟩, hw⟩ := ihV x tbl (by omega) hb.1
        obtain ⟨⟨ws, t2⟩, hws⟩ := ihL xs t1 (by omega) hb.2
        exact ⟨(w :: ws, t2), by simp [fEncLF, hw, hws]⟩
    · intro kvs tbl hs hb
      cases kvs with
      | nil => exact ⟨_, fEncDF_nil _ tbl⟩
      | cons q qs =>
        obtain ⟨k, v⟩ := q
        simp only [jsizeD] at hs
        simp only [hasBadSD, Bool.or_eq_false_iff] at hb
        obtain ⟨⟨w, t1⟩, hw⟩ := ihV v tbl (by omega) hb.1
        obtain ⟨⟨ws, t2⟩, hws⟩ := ihD qs t1 (by omega) hb.2
        exact ⟨((k, w) :: ws, t2), by simp [fEncDF, hw, hws]⟩

theorem dEnc_BC : ∀ f : Nat,
    (∀ v tbl w tbl', (∀ x ∈ tbl, hasBadS x = false) → dEncF f v tbl = some (w, tbl') →
       hasBadS v = false ∧ ∀ x ∈ tbl', hasBadS x = false) ∧
    (∀ xs tbl ws tbl', (∀ x ∈ tbl, hasBadS x = false) → dEncLF f xs tbl = some (ws, tbl') →
       hasBadSL xs = false ∧ ∀ x ∈ tbl', hasBadS x = false) ∧
    (∀ kvs tbl pws tbl', (∀ x ∈ tbl, hasBadS x = false) → dEncDF f kvs tbl = some (pws, tbl') →
       hasBadSD kvs = false ∧ ∀ x ∈ tbl', hasBadS x = false) := by
  intro f
  induction f with
  | zero =>
    refine ⟨?_, ?_, ?_⟩
    · intro v tbl w tbl' _ h; simp [dEncF] at h
    · intro xs tbl ws tbl' hcl h
      cases xs with
      | nil =>
        rw [dEncLF_nil] at h
        simp only [Option.some.injEq, Prod.mk.injEq] at h
        exact ⟨rfl, h.2 ▸ hcl⟩
      | cons x xs => simp [dEncLF] at h
    · intro kvs tbl pws tbl' hcl h
      cases kvs with
      | nil =>
        rw [dEncDF_nil] at h
        simp only [Option.some.injEq, Prod.mk.injEq] at h
        exact ⟨rfl, h.2 ▸ hcl⟩
      | cons q qs => obtain ⟨k, v⟩ := q; simp [dEncDF] at h
  | succ f ih =>
    obtain ⟨ihV, ihL, ihD⟩ := ih
    refine ⟨?_, ?_, ?_⟩
    · intro v tbl w tbl' hcl h
      cases v with
      | null =>
        simp only [dEncF, Option.some.injEq, Prod.mk.injEq] at h
        exact ⟨rfl, h.2 ▸ hcl⟩
      | int n =>
        simp only [dEncF, Option.some.injEq, Prod.mk.injEq] at h
        exact ⟨rfl, h.2 ▸ hcl⟩
      | str s =>
        simp only [dEncF, Option.some.injEq, Prod.mk.injEq] at h
        exact ⟨rfl, h.2 ▸ hcl⟩
      | list xs =>
        simp only [dEncF] at h
        cases hL : dEncLF f xs tbl with
        | none => rw [hL] at h; simp at h
        | some r =>
          rw [hL] at h
          simp only [Option.map_some', Option.some.injEq, Prod.mk.injEq] at h
          obtain ⟨hbad, hclean⟩ := ihL xs tbl r.1 r.2 hcl hL
          exact ⟨by simpa [hasBadS] using hbad, h.2 ▸ hclean⟩
      | dict kvs =>
        simp only [dEncF] at h
        split at h
        · simp at h
        · next hchk =>
          cases hD : dEncDF f (sortByKey kvs) tbl with
          | none => rw [hD] at h; simp at h
          | some r =>
            rw [hD] at h
            simp only [Option.map_some', Option.some.injEq, Prod.mk.injEq] at h
            obtain ⟨hbad, hclean⟩ := ihD (sortByKey kvs) tbl r.1 r.2 hcl hD
            refine ⟨?_, h.2 ▸ hclean⟩
            simp only [hasBadS, Bool.or_eq_false_iff]
            exact ⟨Bool.eq_false_iff.mpr hchk,
                   (hasBadSD_perm (sortByKey_perm kvs)).symm.trans hbad⟩
      | ent t vals =>
        simp only [dEncF] at h
        cases hI : lookupIdx (.ent t vals) tbl with
        | some i =>
          rw [hI] at h
          simp only [Option.some.injEq, Prod.mk.injEq] at h
          have hmem : JVal.ent t vals ∈ tbl := by
            have := lookupIdx_get hI
            exact List.get?_mem this
          exact ⟨hcl _ hmem, h.2 ▸ hcl⟩
        | none =>
          rw [hI] at h
          cases hL : dEncLF f vals tbl with
          | none => rw [hL] at h; simp at h
          | some r =>
            rw [hL] at h
            simp only [Option.map_some', Option.some.injEq, Prod.mk.injEq] at h
            obtain ⟨hbad, hclean⟩ := ihL vals tbl r.1 r.2 hcl hL
            refine ⟨by simpa [hasBadS] using hbad, ?_⟩
            rw [← h.2]
            intro x hx
            rcases List.mem_append.mp hx with hx' | hx'
            · exact hclean x hx'
            · have : x = JVal.ent t vals := by simpa using hx'
              subst this
              simpa [hasBadS] using hbad
    · intro xs tbl ws tbl' hcl h
      cases xs with
      | nil =>
        rw [dEncLF_nil] at h
        simp only [Option.some.injEq, Prod.mk.injEq] at h
        exact ⟨rfl, h.2 ▸ hcl⟩
      | cons x xs =>
        simp only [dEncLF, Option.pure_def, Option.bind_eq_bind, Option.bind_eq_some,
          Option.some.injEq, Prod.mk.injEq] at h
        obtain ⟨p, hp, q, hq, he⟩ := h
        obtain ⟨hb1, hc1⟩ := ihV x tbl p.1 p.2 hcl hp
        obtain ⟨hb2, hc2⟩ := ihL xs p.2 q.1 q.2 hc1 hq
        refine ⟨by simp [hasBadSL, hb1, hb2], he.2 ▸ hc2⟩
    · intro kvs tbl pws tbl' hcl h
      cases kvs with
      | nil =>
        rw [dEncDF_nil] at h
        simp only [Option.some.injEq, Prod.mk.injEq] at h
        exact ⟨rfl, h.2 ▸ hcl⟩
      | cons q qs =>
        obtain ⟨k, v⟩ := q
        simp only [dEncDF, Option.pure_def, Option.bind_eq_bind, Option.bind_eq_some,
          Option.some.injEq, Prod.mk.injEq] at h
        obtain ⟨p, hp, q', hq', he⟩ := h
        obtain ⟨hb1, hc1⟩ := ihV v tbl p.1 p.2 hcl hp
        obtain ⟨hb2, hc2⟩ := ihD qs p.2 q'.1 q'.2 hc1 hq'
        refine ⟨by simp [hasBadSD, hb1, hb2], he.2 ▸ hc2⟩

theorem dEnc_none_of_bad {f : Nat} {v : JVal} {tbl : List JVal}
    (hcl : ∀ x ∈ tbl, hasBadS x = false) (hb : hasBadS v = true) :
    dEncF f v tbl = none := by
  cases h : dEncF f v tbl with
  | none => rfl
  | some r =>
    obtain ⟨w, tbl'⟩ := r
    have hc := ((dEnc_BC f).1 v tbl w tbl' hcl h).1
    rw [hb] at hc; cases hc

theorem fEnc_BC : ∀ f : Nat,
    (∀ v tbl w tbl', (∀ x ∈ tbl, hasBadS x = false) → fEncF f v tbl = some (w, tbl') →
       hasBadS v = false ∧ ∀ x ∈ tbl', hasBadS x = false) ∧
    (∀ xs tbl ws tbl', (∀ x ∈ tbl, hasBadS x = false) → fEncLF f xs tbl = some (ws, tbl') →
       hasBadSL xs = false ∧ ∀ x ∈ tbl', hasBadS x = false) ∧
    (∀ kvs tbl pws tbl', (∀ x ∈ tbl, hasBadS x = false) → fEncDF f kvs tbl = some (pws, tbl') →
       hasBadSD kvs = false ∧ ∀ x ∈ tbl', hasBadS x = false) := by
  intro f
  induction f with
  | zero =>
    refine ⟨?_, ?_, ?_⟩
    · intro v tbl w tbl' _ h; simp [fEncF] at h
    · intro xs tbl ws tbl' hcl h
      cases xs with
      | nil =>
        rw [fEncLF_nil] at h
        simp only [Option.some.injEq, Prod.mk.injEq] at h
        exact ⟨rfl, h.2 ▸ hcl⟩
      | cons x xs => simp [fEncLF] at h
    · intro kvs tbl pws tbl' hcl h
      cases kvs with
      | nil =>
        rw [fEncDF_nil] at h
        simp only [Option.some.injEq, Prod.mk.injEq] at h
        exact ⟨rfl, h.2 ▸ hcl⟩
      | cons q qs => obtain ⟨k, v⟩ := q; simp [fEncDF] at h
  | succ f ih =>
    obtain ⟨ihV, ihL, ihD⟩ := ih
    refine ⟨?_, ?_, ?_⟩
    · intro v tbl w tbl' hcl h
      cases hI : lookupIdx v tbl with
      | some i =>
        simp only [fEncF, hI, Option.some.injEq, Prod.mk.injEq] at h
        have hmem : v ∈ tbl := List.get?_mem (lookupIdx_get hI)
        exact ⟨hcl _ hmem, h.2 ▸ hcl⟩
      | none =>
        have happend : ∀ (t2 : List JVal), hasBadS v = false →
            (∀ x ∈ t2, hasBadS x = false) → ∀ x ∈ t2 ++ [v], hasBadS x = false := by
          intro t2 hv hct x hx
          rcases List.mem_append.mp hx with hx' | hx'
          · exact hct x hx'
          · have : x = v := by simpa using hx'
            subst this; exact hv
        cases v with
        | null =>
          simp only [fEncF, hI, Option.some.injEq, Prod.mk.injEq] at h
          exact ⟨rfl, h.2 ▸ happend tbl rfl hcl⟩
        | int n =>
          simp only [fEncF, hI, Option.some.injEq, Prod.mk.injEq] at h
          exact ⟨rfl, h.2 ▸ happend tbl rfl hcl⟩
        | str s =>
          simp only [fEncF, hI, Option.some.injEq, Prod.mk.injEq] at h
          exact ⟨rfl, h.2 ▸ happend tbl rfl hcl⟩
        | list xs =>
          simp only [fEncF, hI] at h
          cases hL : fEncLF f xs tbl with
          | none => rw [hL] at h; simp at h
          | some r =>
            rw [hL] at h
            simp only [Option.map_some', Option.some.injEq, Prod.mk.injEq] at h
            obtain ⟨hbad, hclean⟩ := ihL xs tbl r.1 r.2 hcl hL
            have hv : hasBadS (JVal.list xs) = false := by simpa [hasBadS] using hbad
            exact ⟨hv, h.2 ▸ happend r.2 hv hclean⟩
        | dict kvs =>
          simp only [fEncF, hI] at h
          split at h
          · simp at h
          · next hchk =>
            cases hD : fEncDF f (sortByKey kvs) tbl with
            | none => rw [hD] at h; simp at h
            | some r =>
              rw [hD] at h
              simp only [Option.map_some', Option.some.injEq, Prod.mk.injEq] at h
              obtain ⟨hbad, hclean⟩ := ihD (sortByKey kvs) tbl r.1 r.2 hcl hD
              have hv : hasBadS (JVal.dict kvs) = false := by
                simp only [hasBadS, Bool.or_eq_false_iff]
                exact ⟨Bool.eq_false_iff.mpr hchk,
                       (hasBadSD_perm (sortByKey_perm kvs)).symm.trans hbad⟩
              exact ⟨hv, h.2 ▸ happend r.2 hv hclean⟩
        | ent t vals =>
          simp only [fEncF, hI] at h
          cases hL : fEncLF f vals tbl with
          | none => rw [hL] at h; simp at h
          | some r =>
            rw [hL] at h
            simp only [Option.map_some', Option.some.injEq, Prod.mk.injEq] at h
            obtain ⟨hbad, hclean⟩ := ihL vals tbl r.1 r.2 hcl hL
            have hv : hasBadS (JVal.ent t vals) = false := by simpa [hasBadS] using hbad
            exact ⟨hv, h.2 ▸ happend r.2 hv hclean⟩
    · intro xs tbl ws tbl' hcl h
      cases xs with
      | nil =>
        rw [fEncLF_nil] at h
        simp only [Option.some.injEq, Prod.mk.injEq] at h
        exact ⟨rfl, h.2 ▸ hcl⟩
      | cons x xs =>
        simp only [fEncLF, Option.pure_def, Option.bind_eq_bind, Option.bind_eq_some,
          Option.some.injEq, Prod.mk.injEq] at h
        obtain ⟨p, hp, q, hq, he⟩ := h
        obtain ⟨hb1, hc1⟩ := ihV x tbl p.1 p.2 hcl hp
        obtain ⟨hb2, hc2⟩ := ihL xs p.2 q.1 q.2 hc1 hq
        refine ⟨by simp [hasBadSL, hb1, hb2], he.2 ▸ hc2⟩
    · intro kvs tbl pws tbl' hcl h
      cases kvs with
      | nil =>
        rw [fEncDF_nil] at h
        simp only [Option.some.injEq, Prod.mk.injEq] at h
        exact ⟨rfl, h.2 ▸ hcl⟩
      | cons q qs =>
        obtain ⟨k, v⟩ := q
        simp only [fEncDF, Option.pure_def, Option.bind_eq_bind, Option.bind_eq_some,
          Option.some.injEq, Prod.mk.injEq] at h
        obtain ⟨p, hp, q', hq', he⟩ := h
        obtain ⟨hb1, hc1⟩ := ihV v tbl p.1 p.2 hcl hp
        obtain ⟨hb2, hc2⟩ := ihD qs p.2 q'.1 q'.2 hc1 hq'
        refine ⟨by simp [hasBadSD, hb1, hb2], he.2 ▸ hc2⟩

theorem fEnc_none_of_bad {f : Nat} {v : JVal} {tbl : List JVal}
    (hcl : ∀ x ∈ tbl, hasBadS x = false) (hb : hasBadS v = true) :
    fEncF f v tbl = none := by
  cases h : fEncF f v tbl with
  | none => rfl
  | some r =>
    obtain ⟨w, tbl'⟩ := r
    have hc := ((fEnc_BC f).1 v tbl w tbl' hcl h).1
    rw [hb] at hc; cases hc

theorem dEnc_G : ∀ f : Nat,
    (∀ v tbl w tbl', dEncF f v tbl = some (w, tbl') →
       ∀ x ∈ tbl', x ∈ tbl ∨ jsize x ≤ jsize v) ∧
    (∀ xs tbl ws tbl', dEncLF f xs tbl = some (ws, tbl') →
       ∀ x ∈ tbl', x ∈ tbl ∨ jsize x ≤ jsizeL xs) ∧
    (∀ kvs tbl pws tbl', dEncDF f kvs tbl = some (pws, tbl') →
       ∀ x ∈ tbl', x ∈ tbl ∨ jsize x ≤ jsizeD kvs) := by
  intro f
  induction f with
  | zero =>
    refine ⟨?_, ?_, ?_⟩
    · intro v tbl w tbl' h; simp [dEncF] at h
    · intro xs tbl ws tbl' h
      cases xs with
      | nil =>
        rw [dEncLF_nil] at h
        simp only [Option.some.injEq, Prod.mk.injEq] at h
        intro x hx
        exact Or.inl (h.2 ▸ hx)
      | cons x xs => simp [dEncLF] at h
    · intro kvs tbl pws tbl' h
      cases kvs with
      | nil =>
        rw [dEncDF_nil] at h
        simp only [Option.some.injEq, Prod.mk.injEq] at h
        intro x hx
        exact Or.inl (h.2 ▸ hx)
      | cons q qs => obtain ⟨k, v⟩ := q; simp [dEncDF] at h
  | succ f ih =>
    obtain ⟨ihV, ihL, ihD⟩ := ih
    refine ⟨?_, ?_, ?_⟩
    · intro v tbl w tbl' h
      cases v with
      | null =>
        simp only [dEncF, Option.some.injEq, Prod.mk.injEq] at h
        intro x hx; exact Or.inl (h.2 ▸ hx)
      | int n =>
        simp only [dEncF, Option.some.injEq, Prod.mk.injEq] at h
        intro x hx; exact Or.inl (h.2 ▸ hx)
      | str s =>
        simp only [dEncF, Option.some.injEq, Prod.mk.injEq] at h
        intro x hx; exact Or.inl (h.2 ▸ hx)
      | list xs =>
        simp only [dEncF] at h
        cases hL : dEncLF f xs tbl with
        | none => rw [hL] at h; simp at h
        | some r =>
          rw [hL] at h
          simp only [Option.map_some', Option.some.injEq, Prod.mk.injEq] at h
          intro x hx
          rcases ihL xs tbl r.1 r.2 hL x (h.2 ▸ hx) with hm | hs
          · exact Or.inl hm
          · right; simp only [jsize]; omega
      | dict kvs =>
        simp only [dEncF] at h
        split at h
        · simp at h
        · cases hD : dEncDF f (sortByKey kvs) tbl with
          | none => rw [hD] at h; simp at h
          | some r =>
            rw [hD] at h
            simp only [Option.map_some', Option.some.injEq, Prod.mk.injEq] at h
            intro x hx
            rcases ihD (sortByKey kvs) tbl r.1 r.2 hD x (h.2 ▸ hx) with hm | hs
            · exact Or.inl hm
            · right
              rw [jsizeD_sortByKey] at hs
              simp only [jsize]; omega
      | ent t vals =>
        simp only [dEncF] at h
        cases hI : lookupIdx (.ent t vals) tbl with
        | some i =>
          rw [hI] at h
          simp only [Option.some.injEq, Prod.mk.injEq] at h
          intro x hx; exact Or.inl (h.2 ▸ hx)
        | none =>
          rw [hI] at h
          cases hL : dEncLF f vals tbl with
          | none => rw [hL] at h; simp at h
          | some r =>
            rw [hL] at h
            simp only [Option.map_some', Option.some.injEq, Prod.mk.injEq] at h
            intro x hx
            rw [← h.2] at hx
            rcases List.mem_append.mp hx with hx' | hx'
            · rcases ihL vals tbl r.1 r.2 hL x hx' with hm | hs
              · exact Or.inl hm
              · right; simp only [jsize]; omega
            · right
              have : x = JVal.ent t vals := by simpa using hx'
              subst this
              exact le_rfl
    · intro xs tbl ws tbl' h
      cases xs with
      | nil =>
        rw [dEncLF_nil] at h
        simp only [Option.some.injEq, Prod.mk.injEq] at h
        intro x hx; exact Or.inl (h.2 ▸ hx)
      | cons y ys =>
        simp only [dEncLF, Option.pure_def, Option.bind_eq_bind, Option.bind_eq_some,
          Option.some.injEq, Prod.mk.injEq] at h
        obtain ⟨p, hp, q, hq, he⟩ := h
        intro x hx
        rcases ihL ys p.2 q.1 q.2 hq x (he.2 ▸ hx) with hm | hs
        · rcases ihV y tbl p.1 p.2 hp x hm with hm' | hs'
          · exact Or.inl hm'
          · right; simp only [jsizeL]; omega
        · right; simp only [jsizeL]; omega
    · intro kvs tbl pws tbl' h
      cases kvs with
      | nil =>
        rw [dEncDF_nil] at h
        simp only [Option.some.injEq, Prod.mk.injEq] at h
        intro x hx; exact Or.inl (h.2 ▸ hx)
      | cons q qs =>
        obtain ⟨k, v⟩ := q
        simp only [dEncDF, Option.pure_def, Option.bind_eq_bind, Option.bind_eq_some,
          Option.some.injEq, Prod.mk.injEq] at h
        obtain ⟨p, hp, q', hq', he⟩ := h
        intro x hx
        rcases ihD qs p.2 q'.1 q'.2 hq' x (he.2 ▸ hx) with hm | hs
        · rcases ihV v tbl p.1 p.2 hp x hm with hm' | hs'
          · exact Or.inl hm'
          · right; simp only [jsizeD]; omega
        · right; simp only [jsizeD]; omega

theorem reserved_keys_absent {kvs : List (String × JVal)}
    (h : (kvs.any (fun p => p.1 = "*" || p.1 = "&")) = false) :
    hasKey "*" kvs = false ∧ hasKey "&" kvs = false := by
  constructor <;> rw [hasKey_eq_false_iff] <;> intro p hp he
  · have ht : kvs.any (fun p => p.1 = "*" || p.1 = "&") = true :=
      List.any_eq_true.mpr ⟨p, hp, by simp [he]⟩
    rw [h] at ht; cases ht
  · have ht : kvs.any (fun p => p.1 = "*" || p.1 = "&") = true :=
      List.any_eq_true.mpr ⟨p, hp, by simp [he]⟩
    rw [h] at ht; cases ht

theorem pyIndex_map_canon {v : JVal} {tbl : List JVal} {i : Nat}
    (hI : lookupIdx v tbl = some i) :
    pyIndex (tbl.map canon) (i : Int) = some (canon v) := by
  have hg := lookupIdx_get hI
  simp only [pyIndex]
  rw [if_pos (Int.natCast_nonneg i)]
  have ht : ((i : Int)).toNat = i := by simp
  rw [ht, List.get?_map, hg]
  rfl

theorem canonD_sortByKey (kvs : List (String × JVal)) :
    canonD (sortByKey kvs) = sortByKey (canonD kvs) := by
  rw [canonD_eq_map, canonD_eq_map, sortByKey_map_val]

theorem dDec_RT : ∀ f : Nat,
    (∀ v tbl w tbl' c, wfArity v = true → dEncF f v tbl = some (w, tbl') →
       dDecF f c w (tbl.map canon) = some (canon v, tbl'.map canon)) ∧
    (∀ xs tbl ws tbl' c, wfArityL xs = true → dEncLF f xs tbl = some (ws, tbl') →
       dDecLF f c ws (tbl.map canon) = some (canonL xs, tbl'.map canon)) ∧
    (∀ kvs tbl pws tbl' c, wfArityD kvs = true → dEncDF f kvs tbl = some (pws, tbl') →
       dDecDF f c pws (tbl.map canon) = some (canonD kvs, tbl'.map canon)) := by
  intro f
  induction f with
  | zero =>
    refine ⟨?_, ?_, ?_⟩
    · intro v tbl w tbl' c _ h; simp [dEncF] at h
    · intro xs tbl ws tbl' c _ h
      cases xs with
      | nil =>
        rw [dEncLF_nil] at h
        simp only [Option.some.injEq, Prod.mk.injEq] at h
        rw [← h.1, ← h.2, dDecLF_nil]
        rfl
      | cons x xs => simp [dEncLF] at h
    · intro kvs tbl pws tbl' c _ h
      cases kvs with
      | nil =>
        rw [dEncDF_nil] at h
        simp only [Option.some.injEq, Prod.mk.injEq] at h
        rw [← h.1, ← h.2, dDecDF_nil]
        rfl
      | cons q qs => obtain ⟨k, v⟩ := q; simp [dEncDF] at h
  | succ f ih =>
    obtain ⟨ihV, ihL, ihD⟩ := ih
    refine ⟨?_, ?_, ?_⟩
    · intro v tbl w tbl' c hwf h
      cases v with
      | null =>
        simp only [dEncF, Option.some.injEq, Prod.mk.injEq] at h
        rw [← h.1, ← h.2]
        rfl
      | int n =>
        simp only [dEncF, Option.some.injEq, Prod.mk.injEq] at h
        rw [← h.1, ← h.2]
        rfl
      | str s =>
        simp only [dEncF, Option.some.injEq, Prod.mk.injEq] at h
        rw [← h.1, ← h.2]
        rfl
      | list xs =>
        simp only [dEncF] at h
        cases hL : dEncLF f xs tbl with
        | none => rw [hL] at h; simp at h
        | some r =>
          rw [hL] at h
          simp only [Option.map_some', Option.some.injEq, Prod.mk.injEq] at h
          have hrec := ihL xs tbl r.1 r.2 c (by simpa [wfArity] using hwf) hL
          rw [← h.1, ← h.2]
          simp only [dDecF, hrec, Option.map_some', canon]
      | dict kvs =>
        simp only [dEncF] at h
        split at h
        · simp at h
        · next hchk =>
          cases hD : dEncDF f (sortByKey kvs) tbl with
          | none => rw [hD] at h; simp at h
          | some r =>
            rw [hD] at h
            simp only [Option.map_some', Option.some.injEq, Prod.mk.injEq] at h
            have hchk' : (kvs.any (fun p => p.1 = "*" || p.1 = "&")) = false :=
              Bool.eq_false_iff.mpr hchk
            have hkeys := dEncDF_keys f hD
            obtain ⟨hstar, hamp⟩ := reserved_keys_absent hchk'
            have hstar' : hasKey "*" r.1 = false := by
              rw [hasKey_of_keys_eq hkeys, hasKey_perm (sortByKey_perm kvs)]
              exact hstar
            have hamp' : hasKey "&" r.1 = false := by
              rw [hasKey_of_keys_eq hkeys, hasKey_perm (sortByKey_perm kvs)]
              exact hamp
            have hsorted : keysSorted r.1 = true := by
              rw [keysSorted_of_keys_eq hkeys]
              exact keysSorted_sortByKey kvs
            have hwf' : wfArityD (sortByKey kvs) = true :=
              wfArityD_perm (sortByKey_perm kvs).symm (by simpa [wfArity] using hwf)
            have hrec := ihD (sortByKey kvs) tbl r.1 r.2 c hwf' hD
            rw [← h.1, ← h.2]
            simp [dDecF, hstar', hamp', sortByKey_fix hsorted, hrec, canon,
              canonD_sortByKey]
      | ent t vals =>
        simp only [dEncF] at h
        cases hI : lookupIdx (.ent t vals) tbl with
        | some i =>
          rw [hI] at h
          simp only [Option.some.injEq, Prod.mk.injEq] at h
          rw [← h.1, ← h.2]
          have hidx := @pyIndex_map_canon _ tbl _ hI
          simp [dDecF, hasKey, lookupKey, hidx, deepcopy]
        | none =>
          rw [hI] at h
          cases hL : dEncLF f vals tbl with
          | none => rw [hL] at h; simp at h
          | some r =>
            rw [hL] at h
            simp only [Option.map_some', Option.some.injEq, Prod.mk.injEq] at h
            simp only [wfArity, Bool.and_eq_true, beq_iff_eq] at hwf
            have hrec := ihL vals tbl r.1 r.2 c hwf.2 hL
            rw [← h.1, ← h.2]
            have hlen : (canonL vals).length = (fieldsOf t).length := by
              rw [canonL_eq_map, List.length_map, hwf.1]
            simp [dDecF, hasKey, lookupKey, typeOfAlias_aliasOf, hrec, hlen, canon,
              List.map_append]
    · intro xs tbl ws tbl' c hwf h
      cases xs with
      | nil =>
        rw [dEncLF_nil] at h
        simp only [Option.some.injEq, Prod.mk.injEq] at h
        rw [← h.1, ← h.2, dDecLF_nil]
        rfl
      | cons x xs =>
        simp only [dEncLF, Option.pure_def, Option.bind_eq_bind, Option.bind_eq_some,
          Option.some.injEq, Prod.mk.injEq] at h
        obtain ⟨p, hp, q, hq, he⟩ := h
        simp only [wfArityL, Bool.and_eq_true] at hwf
        have h1 := ihV x tbl p.1 p.2 c hwf.1 (by rw [← @Prod.mk.eta _ _ p] at hp; exact hp)
        have h2 := ihL xs p.2 q.1 q.2 c hwf.2 (by rw [← @Prod.mk.eta _ _ q] at hq; exact hq)
        rw [← he.1, ← he.2]
        simp only [dDecLF, Option.pure_def, Option.bind_eq_bind, h1, Option.some_bind,
          h2, canonL]
    · intro kvs tbl pws tbl' c hwf h
      cases kvs with
      | nil =>
        rw [dEncDF_nil] at h
        simp only [Option.some.injEq, Prod.mk.injEq] at h
        rw [← h.1, ← h.2, dDecDF_nil]
        rfl
      | cons q qs =>
        obtain ⟨k, v⟩ := q
        simp only [dEncDF, Option.pure_def, Option.bind_eq_bind, Option.bind_eq_some,
          Option.some.injEq, Prod.mk.injEq] at h
        obtain ⟨p, hp, q', hq', he⟩ := h
        simp only [wfArityD, Bool.and_eq_true] at hwf
        have h1 := ihV v tbl p.1 p.2 c hwf.1 (by rw [← @Prod.mk.eta _ _ p] at hp; exact hp)
        have h2 := ihD qs p.2 q'.1 q'.2 c hwf.2 (by rw [← @Prod.mk.eta _ _ q'] at hq'; exact hq')
        rw [← he.1, ← he.2]
        simp only [dDecDF, Option.pure_def, Option.bind_eq_bind, h1, Option.some_bind,
          h2, canonD]

theorem dDec_DA : ∀ f : Nat,
    (∀ c w tbl r, dDecF f c w tbl = some r → ∀ g, jsize w ≤ g → dDecF g c w tbl = some r) ∧
    (∀ c ws tbl r, dDecLF f c ws tbl = some r → ∀ g, jsizeL ws ≤ g → dDecLF g c ws tbl = some r) ∧
    (∀ c kvs tbl r, dDecDF f c kvs tbl = some r → ∀ g, jsizeD kvs ≤ g →
       dDecDF g c kvs tbl = some r) := by
  intro f
  induction f with
  | zero =>
    refine ⟨?_, ?_, ?_⟩
    · intro c w tbl r h; simp [dDecF] at h
    · intro c ws tbl r h g _
      cases ws with
      | nil => rw [dDecLF_nil] at h; rw [dDecLF_nil]; exact h
      | cons x xs => simp [dDecLF] at h
    · intro c kvs tbl r h g _
      cases kvs with
      | nil => rw [dDecDF_nil] at h; rw [dDecDF_nil]; exact h
      | cons q qs => obtain ⟨k, v⟩ := q; simp [dDecDF] at h
  | succ f ih =>
    obtain ⟨ihV, ihL, ihD⟩ := ih
    refine ⟨?_, ?_, ?_⟩
    · intro c w tbl r h g hs
      have hg1 : 1 ≤ g := le_trans (jsize_pos w) hs
      obtain ⟨g', rfl⟩ : ∃ g', g = g' + 1 := ⟨g - 1, by omega⟩
      cases w with
      | null => simpa [dDecF] using h
      | int n => simpa [dDecF] using h
      | str s => simpa [dDecF] using h
      | list ws =>
        simp only [dDecF] at h ⊢
        cases hdl : dDecLF f c ws tbl with
        | none => rw [hdl] at h; simp at h
        | some p =>
          rw [hdl] at h
          have hb : jsizeL ws ≤ g' := by simp only [jsize] at hs; omega
          rw [ihL c ws tbl p hdl g' hb]
          exact h
      | dict kvs =>
        simp only [dDecF] at h ⊢
        rcases hk : hasKey "*" kvs with _ | _
        · rw [hk] at h
          simp only [Bool.false_eq_true, if_false] at h ⊢
          rcases ha : hasKey "&" kvs with _ | _
          · rw [ha] at h
            simp only [Bool.false_eq_true, if_false] at h ⊢
            cases hD : dDecDF f c (sortByKey kvs) tbl with
            | none => rw [hD] at h; simp at h
            | some p =>
              rw [hD] at h
              have hb : jsizeD (sortByKey kvs) ≤ g' := by
                rw [jsizeD_sortByKey]
                simp only [jsize] at hs
                omega
              rw [ihD c (sortByKey kvs) tbl p hD g' hb]
              exact h
          · rw [ha] at h
            simp only [eq_self_iff_true, if_true] at h ⊢
            simp only [Option.bind_eq_bind, Option.bind_eq_some] at h
            obtain ⟨av, hav, h⟩ := h
            cases av with
            | null => simp at h
            | int n => simp at h
            | dict d => simp at h
            | list l => simp at h
            | ent t2 v2 => simp at h
            | str a =>
              simp only [Option.bind_eq_some] at h
              obtain ⟨t, hta, h⟩ := h
              obtain ⟨uv, huv, h⟩ := h
              cases uv with
              | null => simp at h
              | int n => simp at h
              | str s2 => simp at h
              | dict d => simp at h
              | ent t2 v2 => simp at h
              | list ws2 =>
                simp only [Option.bind_eq_some] at h
                obtain ⟨p, hdl, h⟩ := h
                have hsz := lookupKey_size huv
                have hb : jsizeL ws2 ≤ g' := by
                  simp only [jsize, jsizeL] at hsz hs ⊢
                  omega
                rw [hav]
                simp only [Option.some_bind, Option.bind_eq_bind, hta,
                  Option.some_bind, huv, ihL c ws2 tbl p hdl g' hb]
                exact h
        · rw [hk] at h
          simp only [eq_self_iff_true, if_true] at h ⊢
          exact h
      | ent t vals =>
        simpa [dDecF] using h
    · intro c ws tbl r h g hs
      cases ws with
      | nil =>
        rw [dDecLF_nil] at h
        rw [dDecLF_nil]
        exact h
      | cons x xs =>
        have hg1 : 1 ≤ g := by simp only [jsizeL] at hs; omega
        obtain ⟨g', rfl⟩ : ∃ g', g = g' + 1 := ⟨g - 1, by omega⟩
        simp only [dDecLF] at h ⊢
        cases hd1 : dDecF f c x tbl with
        | none => rw [hd1] at h; simp at h
        | some p =>
          rw [hd1] at h
          simp only [jsizeL] at hs
          rw [ihV c x tbl p hd1 g' (by omega)]
          simp only [Option.some_bind, Option.bind_eq_bind] at h ⊢
          cases hd2 : dDecLF f c xs p.2 with
          | none => rw [hd2] at h; simp at h
          | some q =>
            rw [hd2] at h
            rw [ihL c xs p.2 q hd2 g' (by omega)]
            exact h
    · intro c kvs tbl r h g hs
      cases kvs with
      | nil =>
        rw [dDecDF_nil] at h
        rw [dDecDF_nil]
        exact h
      | cons q qs =>
        obtain ⟨k, v⟩ := q
        have hg1 : 1 ≤ g := by simp only [jsizeD] at hs; omega
        obtain ⟨g', rfl⟩ : ∃ g', g = g' + 1 := ⟨g - 1, by omega⟩
        simp only [dDecDF] at h ⊢
        cases hd1 : dDecF f c v tbl with
        | none => rw [hd1] at h; simp at h
        | some p =>
          rw [hd1] at h
          simp only [jsizeD] at hs
          rw [ihV c v tbl p hd1 g' (by omega)]
          simp only [Option.some_bind, Option.bind_eq_bind] at h ⊢
          cases hd2 : dDecDF f c qs p.2 with
          | none => rw [hd2] at h; simp at h
          | some q' =>
            rw [hd2] at h
            rw [ihD c qs p.2 q' hd2 g' (by omega)]
            exact h

theorem entityFreeL_iff {xs : List JVal} :
    entityFreeL xs = true ↔ ∀ x ∈ xs, entityFree x = true := by
  induction xs with
  | nil => simp [entityFreeL]
  | cons y ys ih =>
    simp only [entityFreeL, Bool.and_eq_true, ih, List.mem_cons]
    constructor
    · rintro ⟨h1, h2⟩ x (rfl | hx)
      · exact h1
      · exact h2 x hx
    · intro h
      exact ⟨h y (Or.inl rfl), fun x hx => h x (Or.inr hx)⟩

theorem entityFreeD_iff {l : List (String × JVal)} :
    entityFreeD l = true ↔ ∀ p ∈ l, entityFree p.2 = true := by
  induction l with
  | nil => simp [entityFreeD]
  | cons q qs ih =>
    obtain ⟨k, v⟩ := q
    simp only [entityFreeD, Bool.and_eq_true, ih, List.mem_cons]
    constructor
    · rintro ⟨h1, h2⟩ p (rfl | hp)
      · exact h1
      · exact h2 p hp
    · intro h
      exact ⟨h (k, v) (Or.inl rfl), fun p hp => h p (Or.inr hp)⟩

theorem entityFreeD_perm {l₁ l₂ : List (String × JVal)} (h : l₁.Perm l₂)
    (he : entityFreeD l₁ = true) : entityFreeD l₂ = true := by
  rw [entityFreeD_iff]
  intro p hp
  exact entityFreeD_iff.mp he p (h.mem_iff.mpr hp)

theorem dEnc_EF : ∀ f : Nat,
    (∀ v tbl, jsize v ≤ f → entityFree v = true → hasBadS v = false →
       dEncF f v tbl = some (canon v, tbl)) ∧
    (∀ xs tbl, jsizeL xs ≤ f → entityFreeL xs = true → hasBadSL xs = false →
       dEncLF f xs tbl = some (canonL xs, tbl)) ∧
    (∀ kvs tbl, jsizeD kvs ≤ f → entityFreeD kvs = true → hasBadSD kvs = false →
       dEncDF f kvs tbl = some (canonD kvs, tbl)) := by
  intro f
  induction f with
  | zero =>
    refine ⟨?_, ?_, ?_⟩
    · intro v tbl hs _ _
      exfalso; have := jsize_pos v; omega
    · intro xs tbl hs _ _
      have hx : xs = [] := jsizeL_eq_zero (Nat.le_zero.mp hs)
      subst hx
      rw [dEncLF_nil]; rfl
    · intro kvs tbl hs _ _
      have hx : kvs = [] := jsizeD_eq_zero (Nat.le_zero.mp hs)
      subst hx
      rw [dEncDF_nil]; rfl
  | succ f ih =>
    obtain ⟨ihV, ihL, ihD⟩ := ih
    refine ⟨?_, ?_, ?_⟩
    · intro v tbl hs he hb
      cases v with
      | null => rfl
      | int n => rfl
      | str s => rfl
      | list xs =>
        simp only [jsize] at hs
        simp only [entityFree] at he
        simp only [hasBadS] at hb
        simp [dEncF, ihL xs tbl (by omega) he hb, canon]
      | dict kvs =>
        simp only [jsize] at hs
        simp only [entityFree] at he
        simp only [hasBadS, Bool.or_eq_false_iff] at hb
        have hrec := ihD (sortByKey kvs) tbl
          (by rw [jsizeD_sortByKey]; omega)
          (entityFreeD_perm (sortByKey_perm kvs).symm he)
          (by rw [hasBadSD_perm (sortByKey_perm kvs)]; exact hb.2)
        simp [dEncF, hb.1, hrec, canon, canonD_sortByKey]
      | ent t vals => simp [entityFree] at he
    · intro xs tbl hs he hb
      cases xs with
      | nil => rw [dEncLF_nil]; rfl
      | cons x xs =>
        simp only [jsizeL] at hs
        simp only [entityFreeL, Bool.and_eq_true] at he
        simp only [hasBadSL, Bool.or_eq_false_iff] at hb
        simp [dEncLF, ihV x tbl (by omega) he.1 hb.1,
          ihL xs tbl (by omega) he.2 hb.2, canonL]
    · intro kvs tbl hs he hb
      cases kvs with
      | nil => rw [dEncDF_nil]; rfl
      | cons q qs =>
        obtain ⟨k, v⟩ := q
        simp only [jsizeD] at hs
        simp only [entityFreeD, Bool.and_eq_true] at he
        simp only [hasBadSD, Bool.or_eq_false_iff] at hb
        simp [dEncDF, ihV v tbl (by omega) he.1 hb.1,
          ihD qs tbl (by omega) he.2 hb.2, canonD]

mutual
theorem plainEF_V : ∀ v : JVal, entityFree v = true → hasBadT v = false →
    PlainSerializer.encodeV v = some v
  | .null => fun _ _ => rfl
  | .int n => fun _ _ => rfl
  | .str s => fun _ _ => rfl
  | .list xs => by
    intro he hb
    simp only [entityFree] at he
    simp only [hasBadT] at hb
    simp [PlainSerializer.encodeV, plainEF_L xs he hb]
  | .dict kvs => by
    intro he hb
    simp only [entityFree] at he
    simp only [hasBadT, Bool.or_eq_false_iff] at hb
    simp only [PlainSerializer.encodeV, hb.1]
    simp [plainEF_D kvs he hb.2]
  | .ent t vals => by intro he _; simp [entityFree] at he
theorem plainEF_L : ∀ xs : List JVal, entityFreeL xs = true → hasBadTL xs = false →
    PlainSerializer.encodeL xs = some xs
  | [] => fun _ _ => rfl
  | x :: xs => by
    intro he hb
    simp only [entityFreeL, Bool.and_eq_true] at he
    simp only [hasBadTL, Bool.or_eq_false_iff] at hb
    simp [PlainSerializer.encodeL, plainEF_V x he.1 hb.1, plainEF_L xs he.2 hb.2]
theorem plainEF_D : ∀ kvs : List (String × JVal), entityFreeD kvs = true →
    hasBadTD kvs = false → PlainSerializer.encodeD kvs = some kvs
  | [] => fun _ _ => rfl
  | (k, v) :: kvs => by
    intro he hb
    simp only [entityFreeD, Bool.and_eq_true] at he
    simp only [hasBadTD, Bool.or_eq_false_iff] at hb
    simp [PlainSerializer.encodeD, plainEF_V v he.1 hb.1, plainEF_D kvs he.2 hb.2]
end

theorem fDec_RT : ∀ f : Nat,
    (∀ v tbl w tbl' c, wfArity v = true → fEncF f v tbl = some (w, tbl') →
       fDecF f c w (tbl.map canon) = some (canon v, tbl'.map canon)) ∧
    (∀ xs tbl ws tbl' c, wfArityL xs = true → fEncLF f xs tbl = some (ws, tbl') →
       fDecLF f c ws (tbl.map canon) = some (canonL xs, tbl'.map canon)) ∧
    (∀ kvs tbl pws tbl' c, wfArityD kvs = true → fEncDF f kvs tbl = some (pws, tbl') →
       fDecDF f c pws (tbl.map canon) = some (canonD kvs, tbl'.map canon)) := by
  intro f
  induction f with
  | zero =>
    refine ⟨?_, ?_, ?_⟩
    · intro v tbl w tbl' c _ h; simp [fEncF] at h
    · intro xs tbl ws tbl' c _ h
      cases xs with
      | nil =>
        rw [fEncLF_nil] at h
        simp only [Option.some.injEq, Prod.mk.injEq] at h
        rw [← h.1, ← h.2, fDecLF_nil]
        rfl
      | cons x xs => simp [fEncLF] at h
    · intro kvs tbl pws tbl' c _ h
      cases kvs with
      | nil =>
        rw [fEncDF_nil] at h
        simp only [Option.some.injEq, Prod.mk.injEq] at h
        rw [← h.1, ← h.2, fDecDF_nil]
        rfl
      | cons q qs => obtain ⟨k, v⟩ := q; simp [fEncDF] at h
  | succ f ih =>
    obtain ⟨ihV, ihL, ihD⟩ := ih
    refine ⟨?_, ?_, ?_⟩
    · intro v tbl w tbl' c hwf h
      cases hI : lookupIdx v tbl with
      | some i =>
        simp only [fEncF, hI, Option.some.injEq, Prod.mk.injEq] at h
        rw [← h.1, ← h.2]
        have hidx := @pyIndex_map_canon _ tbl _ hI
        simp [fDecF, hasKey, lookupKey, hidx, deepcopy]
      | none =>
        cases v with
        | null =>
          simp only [fEncF, hI, Option.some.injEq, Prod.mk.injEq] at h
          rw [← h.1, ← h.2]
          simp [fDecF, canon, List.map_append]
        | int n =>
          simp only [fEncF, hI, Option.some.injEq, Prod.mk.injEq] at h
          rw [← h.1, ← h.2]
          simp [fDecF, canon, List.map_append]
        | str s =>
          simp only [fEncF, hI, Option.some.injEq, Prod.mk.injEq] at h
          rw [← h.1, ← h.2]
          simp [fDecF, canon, List.map_append]
        | list xs =>
          simp only [fEncF, hI] at h
          cases hL : fEncLF f xs tbl with
          | none => rw [hL] at h; simp at h
          | some r =>
            rw [hL] at h
            simp only [Option.map_some', Option.some.injEq, Prod.mk.injEq] at h
            have hrec := ihL xs tbl r.1 r.2 c (by simpa [wfArity] using hwf) hL
            rw [← h.1, ← h.2]
            simp [fDecF, hrec, canon, List.map_append]
        | dict kvs =>
          simp only [fEncF, hI] at h
          split at h
          · simp at h
          · next hchk =>
            cases hD : fEncDF f (sortByKey kvs) tbl with
            | none => rw [hD] at h; simp at h
            | some r =>
              rw [hD] at h
              simp only [Option.map_some', Option.some.injEq, Prod.mk.injEq] at h
              have hchk' : (kvs.any (fun p => p.1 = "*" || p.1 = "&")) = false :=
                Bool.eq_false_iff.mpr hchk
              have hkeys := fEncDF_keys f hD
              obtain ⟨hstar, hamp⟩ := reserved_keys_absent hchk'
              have hstar' : hasKey "*" r.1 = false := by
                rw [hasKey_of_keys_eq hkeys, hasKey_perm (sortByKey_perm kvs)]
                exact hstar
              have hamp' : hasKey "&" r.1 = false := by
                rw [hasKey_of_keys_eq hkeys, hasKey_perm (sortByKey_perm kvs)]
                exact hamp
              have hsorted : keysSorted r.1 = true := by
                rw [keysSorted_of_keys_eq hkeys]
                exact keysSorted_sortByKey kvs
              have hwf' : wfArityD (sortByKey kvs) = true :=
                wfArityD_perm (sortByKey_perm kvs).symm (by simpa [wfArity] using hwf)
              have hrec := ihD (sortByKey kvs) tbl r.1 r.2 c hwf' hD
              rw [← h.1, ← h.2]
              simp [fDecF, hstar', hamp', sortByKey_fix hsorted, hrec, canon,
                canonD_sortByKey, List.map_append]
        | ent t vals =>
          simp only [fEncF, hI] at h
          cases hL : fEncLF f vals tbl with
          | none => rw [hL] at h; simp at h
          | some r =>
            rw [hL] at h
            simp only [Option.map_some', Option.some.injEq, Prod.mk.injEq] at h
            simp only [wfArity, Bool.and_eq_true, beq_iff_eq] at hwf
            have hrec := ihL vals tbl r.1 r.2 c hwf.2 hL
            rw [← h.1, ← h.2]
            have hlen : (canonL vals).length = (fieldsOf t).length := by
              rw [canonL_eq_map, List.length_map, hwf.1]
            simp [fDecF, hasKey, lookupKey, typeOfAlias_aliasOf, hrec, hlen, canon,
              List.map_append]
    · intro xs tbl ws tbl' c hwf h
      cases xs with
      | nil =>
        rw [fEncLF_nil] at h
        simp only [Option.some.injEq, Prod.mk.injEq] at h
        rw [← h.1, ← h.2, fDecLF_nil]
        rfl
      | cons x xs =>
        simp only [fEncLF, Option.pure_def, Option.bind_eq_bind, Option.bind_eq_some,
          Option.some.injEq, Prod.mk.injEq] at h
        obtain ⟨p, hp, q, hq, he⟩ := h
        simp only [wfArityL, Bool.and_eq_true] at hwf
        have h1 := ihV x tbl p.1 p.2 c hwf.1 (by rw [← @Prod.mk.eta _ _ p] at hp; exact hp)
        have h2 := ihL xs p.2 q.1 q.2 c hwf.2 (by rw [← @Prod.mk.eta _ _ q] at hq; exact hq)
        rw [← he.1, ← he.2]
        simp only [fDecLF, Option.pure_def, Option.bind_eq_bind, h1, Option.some_bind,
          h2, canonL]
    · intro kvs tbl pws tbl' c hwf h
      cases kvs with
      | nil =>
        rw [fEncDF_nil] at h
        simp only [Option.some.injEq, Prod.mk.injEq] at h
        rw [← h.1, ← h.2, fDecDF_nil]
        rfl
      | cons q qs =>
        obtain ⟨k, v⟩ := q
        simp only [fEncDF, Option.pure_def, Option.bind_eq_bind, Option.bind_eq_some,
          Option.some.injEq, Prod.mk.injEq] at h
        obtain ⟨p, hp, q', hq', he⟩ := h
        simp only [wfArityD, Bool.and_eq_true] at hwf
        have h1 := ihV v tbl p.1 p.2 c hwf.1 (by rw [← @Prod.mk.eta _ _ p] at hp; exact hp)
        have h2 := ihD qs p.2 q'.1 q'.2 c hwf.2 (by rw [← @Prod.mk.eta _ _ q'] at hq'; exact hq')
        rw [← he.1, ← he.2]
        simp only [fDecDF, Option.pure_def, Option.bind_eq_bind, h1, Option.some_bind,
          h2, canonD]

theorem fDec_DA : ∀ f : Nat,
    (∀ c w tbl r, fDecF f c w tbl = some r → ∀ g, jsize w ≤ g → fDecF g c w tbl = some r) ∧
    (∀ c ws tbl r, fDecLF f c ws tbl = some r → ∀ g, jsizeL ws ≤ g → fDecLF g c ws tbl = some r) ∧
    (∀ c kvs tbl r, fDecDF f c kvs tbl = some r → ∀ g, jsizeD kvs ≤ g →
       fDecDF g c kvs tbl = some r) := by
  intro f
  induction f with
  | zero =>
    refine ⟨?_, ?_, ?_⟩
    · intro c w tbl r h; simp [fDecF] at h
    · intro c ws tbl r h g _
      cases ws with
      | nil => rw [fDecLF_nil] at h; rw [fDecLF_nil]; exact h
      | cons x xs => simp [fDecLF] at h
    · intro c kvs tbl r h g _
      cases kvs with
      | nil => rw [fDecDF_nil] at h; rw [fDecDF_nil]; exact h
      | cons q qs => obtain ⟨k, v⟩ := q; simp [fDecDF] at h
  | succ f ih =>
    obtain ⟨ihV, ihL, ihD⟩ := ih
    refine ⟨?_, ?_, ?_⟩
    · intro c w tbl r h g hs
      have hg1 : 1 ≤ g := le_trans (jsize_pos w) hs
      obtain ⟨g', rfl⟩ : ∃ g', g = g' + 1 := ⟨g - 1, by omega⟩
      cases w with
      | null => simpa [fDecF] using h
      | int n => simpa [fDecF] using h
      | str s => simpa [fDecF] using h
      | list ws =>
        simp only [fDecF] at h ⊢
        cases hdl : fDecLF f c ws tbl with
        | none => rw [hdl] at h; simp at h
        | some p =>
          rw [hdl] at h
          have hb : jsizeL ws ≤ g' := by simp only [jsize] at hs; omega
          rw [ihL c ws tbl p hdl g' hb]
          exact h
      | dict kvs =>
        simp only [fDecF] at h ⊢
        rcases hk : hasKey "*" kvs with _ | _
        · rw [hk] at h
          simp only [Bool.false_eq_true, if_false] at h ⊢
          rcases ha : hasKey "&" kvs with _ | _
          · rw [ha] at h
            simp only [Bool.false_eq_true, if_false] at h ⊢
            cases hD : fDecDF f c (sortByKey kvs) tbl with
            | none => rw [hD] at h; simp at h
            | some p =>
              rw [hD] at h
              have hb : jsizeD (sortByKey kvs) ≤ g' := by
                rw [jsizeD_sortByKey]
                simp only [jsize] at hs
                omega
              rw [ihD c (sortByKey kvs) tbl p hD g' hb]
              exact h
          · rw [ha] at h
            simp only [eq_self_iff_true, if_true] at h ⊢
            simp only [Option.bind_eq_bind, Option.bind_eq_some] at h
            obtain ⟨av, hav, h⟩ := h
            cases av with
            | null => simp at h
            | int n => simp at h
            | dict d => simp at h
            | list l => simp at h
            | ent t2 v2 => simp at h
            | str a =>
              simp only [Option.bind_eq_some] at h
              obtain ⟨t, hta, h⟩ := h
              obtain ⟨uv, huv, h⟩ := h
              cases uv with
              | null => simp at h
              | int n => simp at h
              | str s2 => simp at h
              | dict d => simp at h
              | ent t2 v2 => simp at h
              | list ws2 =>
                simp only [Option.bind_eq_some] at h
                obtain ⟨p, hdl, h⟩ := h
                have hsz := lookupKey_size huv
                have hb : jsizeL ws2 ≤ g' := by
                  simp only [jsize, jsizeL] at hsz hs ⊢
                  omega
                rw [hav]
                simp only [Option.some_bind, Option.bind_eq_bind, hta,
                  Option.some_bind, huv, ihL c ws2 tbl p hdl g' hb]
                exact h
        · rw [hk] at h
          simp only [eq_self_iff_true, if_true] at h ⊢
          exact h
      | ent t vals =>
        simpa [fDecF] using h
    · intro c ws tbl r h g hs
      cases ws with
      | nil =>
        rw [fDecLF_nil] at h
        rw [fDecLF_nil]
        exact h
      | cons x xs =>
        have hg1 : 1 ≤ g := by simp only [jsizeL] at hs; omega
        obtain ⟨g', rfl⟩ : ∃ g', g = g' + 1 := ⟨g - 1, by omega⟩
        simp only [fDecLF] at h ⊢
        cases hd1 : fDecF f c x tbl with
        | none => rw [hd1] at h; simp at h
        | some p =>
          rw [hd1] at h
          simp only [jsizeL] at hs
          rw [ihV c x tbl p hd1 g' (by omega)]
          simp only [Option.some_bind, Option.bind_eq_bind] at h ⊢
          cases hd2 : fDecLF f c xs p.2 with
          | none => rw [hd2] at h; simp at h
          | some q =>
            rw [hd2] at h
            rw [ihL c xs p.2 q hd2 g' (by omega)]
            exact h
    · intro c kvs tbl r h g hs
      cases kvs with
      | nil =>
        rw [fDecDF_nil] at h
        rw [fDecDF_nil]
        exact h
      | cons q qs =>
        obtain ⟨k, v⟩ := q
        have hg1 : 1 ≤ g := by simp only [jsizeD] at hs; omega
        obtain ⟨g', rfl⟩ : ∃ g', g = g' + 1 := ⟨g - 1, by omega⟩
        simp only [fDecDF] at h ⊢
        cases hd1 : fDecF f c v tbl with
        | none => rw [hd1] at h; simp at h
        | some p =>
          rw [hd1] at h
          simp only [jsizeD] at hs
          rw [ihV c v tbl p hd1 g' (by omega)]
          simp only [Option.some_bind, Option.bind_eq_bind] at h ⊢
          cases hd2 : fDecDF f c qs p.2 with
          | none => rw [hd2] at h; simp at h
          | some q' =>
            rw [hd2] at h
            rw [ihD c qs p.2 q' hd2 g' (by omega)]
            exact h

theorem dedup_roundtrip (v : JVal) (c : Bool) (hwf : wfArity v = true)
    (hb : hasBadS v = false) :
    ∃ w, DeduplicatingSerializer.encode v = some w ∧
      DeduplicatingSerializer.decode w c = some (canon v) := by
  obtain ⟨⟨w, tbl'⟩, hr⟩ := (dEnc_S (jsize v)).1 v [] le_rfl hb
  refine ⟨w, ?_, ?_⟩
  · simp [DeduplicatingSerializer.encode, hr]
  · have hrt := (dDec_RT (jsize v)).1 v [] w tbl' c hwf hr
    simp only [List.map_nil] at hrt
    have hda := (dDec_DA (jsize v)).1 c w [] (canon v, tbl'.map canon) hrt (jsize w) le_rfl
    simp [DeduplicatingSerializer.decode, hda]

theorem full_roundtrip (v : JVal) (c : Bool) (hwf : wfArity v = true)
    (hb : hasBadS v = false) :
    ∃ w, FullyDeduplicatingSerializer.encode v = some w ∧
      FullyDeduplicatingSerializer.decode w c = some (canon v) := by
  obtain ⟨⟨w, tbl'⟩, hr⟩ := (fEnc_S (jsize v)).1 v [] le_rfl hb
  refine ⟨w, ?_, ?_⟩
  · simp [FullyDeduplicatingSerializer.encode, hr]
  · have hrt := (fDec_RT (jsize v)).1 v [] w tbl' c hwf hr
    simp only [List.map_nil] at hrt
    have hda := (fDec_DA (jsize v)).1 c w [] (canon v, tbl'.map canon) hrt (jsize w) le_rfl
    simp [FullyDeduplicatingSerializer.decode, hda]

theorem dEnc_two_ents (t : ETag) (vals : List JVal) (f : Nat)
    (he : entityFreeL vals = true) (hb : hasBadSL vals = false)
    (hf : jsizeL vals + 4 ≤ f) :
    dEncF f (.list [.ent t vals, .ent t vals]) [] =
      some (.list [.dict [("&", .str (aliasOf t)), ("_", .list (canonL vals))],
                   .dict [("*", .int 0)]], [.ent t vals]) := by
  obtain ⟨g, rfl⟩ : ∃ g, f = g + 1 + 1 + 1 + 1 := ⟨f - 4, by omega⟩
  have hEF := (dEnc_EF (g + 1)).2.1 vals [] (by omega) he hb
  simp [dEncF, dEncLF, hEF, lookupIdx]

theorem except_bind_ok {ε α β : Type} (a : α) (f : α → Except ε β) :
    ((Except.ok a : Except ε α) >>= f) = f a := rfl

theorem except_bind_err {ε α β : Type} (e : ε) (f : α → Except ε β) :
    ((Except.error e : Except ε α) >>= f) = Except.error e := rfl

theorem resolve_all_error_of_mem {inputs : List String} {fp : String}
    {argF argB argOut : Option String} {e : CliError}
    (hmem : fp ∈ inputs)
    (he : resolve_pipeline fp argF argB argOut = .error e) :
    ∃ e2, resolve_all argF argB argOut inputs = .error e2 := by
  induction inputs with
  | nil => exact absurd hmem (List.not_mem_nil fp)
  | cons a rest ih =>
    rcases List.mem_cons.mp hmem with rfl | hm
    · exact ⟨e, by simp only [resolve_all, he, except_bind_err]⟩
    · cases hr : resolve_pipeline a argF argB argOut with
      | error e1 => exact ⟨e1, by simp only [resolve_all, hr, except_bind_err]⟩
      | ok r =>
        obtain ⟨e2, he2⟩ := ih hm
        exact ⟨e2, by simp only [resolve_all, hr, except_bind_ok, he2, except_bind_err]⟩

theorem read_compression_known {disk : Disk} {c : String} {js : JVal}
    (h : FileCacheSet.read disk = (some c, js)) :
    c = "none" ∨ c = "gzip" ∨ c = "xz" := by
  simp only [FileCacheSet.read] at h
  cases h1 : lookupKey "none" disk with
  | some j => rw [h1] at h; simp only [Prod.mk.injEq, Option.some.injEq] at h; exact Or.inl h.1.symm
  | none =>
    rw [h1] at h
    cases h2 : lookupKey "gzip" disk with
    | some j =>
      rw [h2] at h; simp only [Prod.mk.injEq, Option.some.injEq] at h
      exact Or.inr (Or.inl h.1.symm)
    | none =>
      rw [h2] at h
      cases h3 : lookupKey "xz" disk with
      | some j =>
        rw [h3] at h; simp only [Prod.mk.injEq, Option.some.injEq] at h
        exact Or.inr (Or.inr h.1.symm)
      | none => rw [h3] at h; simp at h

/-- C1 (corrected): for every well-formed value (entities carry their
declared number of fields, mappings have unique keys) whose mappings avoid
the serializers' reserved keys ("_type" for Plain, "*" and "&" for the
deduplicating pair), decode(encode v) reproduces v: exactly for
PlainSerializer, and up to Python structural equality `==` (mapping key
order immaterial) for DeduplicatingSerializer and
FullyDeduplicatingSerializer under both decode modes.  The frozen claim
omits the reserved-key restriction, without which encode raises
(counterexample below). -/
theorem C1_roundtrip_amended (v : JVal) (c : Bool) (hwf : wfArity v = true)
    (hu : allUniq v = true) (ht : hasBadT v = false) (hs : hasBadS v = false) :
    (∃ w, PlainSerializer.encode v = some w ∧ PlainSerializer.decode w = some v) ∧
    (∃ w u, DeduplicatingSerializer.encode v = some w ∧
       DeduplicatingSerializer.decode w c = some u ∧ pyEq u v = true) ∧
    (∃ w u, FullyDeduplicatingSerializer.encode v = some w ∧
       FullyDeduplicatingSerializer.decode w c = some u ∧ pyEq u v = true) := by
  refine ⟨?_, ?_, ?_⟩
  · obtain ⟨w, hw⟩ := plainS_V v ht
    exact ⟨w, hw, plainRT_V v w hwf hw⟩
  · obtain ⟨w, hw, hd⟩ := dedup_roundtrip v c hwf hs
    exact ⟨w, canon v, hw, hd, pyEq_canon hu⟩
  · obtain ⟨w, hw, hd⟩ := full_roundtrip v c hwf hs
    exact ⟨w, canon v, hw, hd, pyEq_canon hu⟩

/-- C1 witness: the round-trip at a concrete value holding an entity, a
mapping and a primitive, in copy mode. -/
theorem C1_roundtrip_amended_w :
    (∃ w, PlainSerializer.encode (.list [.ent .text [.str "hi"], .dict [("k", .int 1)], .null]) = some w ∧
       PlainSerializer.decode w = some (.list [.ent .text [.str "hi"], .dict [("k", .int 1)], .null])) ∧
    (∃ w u, DeduplicatingSerializer.encode (.list [.ent .text [.str "hi"], .dict [("k", .int 1)], .null]) = some w ∧
       DeduplicatingSerializer.decode w true = some u ∧
       pyEq u (.list [.ent .text [.str "hi"], .dict [("k", .int 1)], .null]) = true) ∧
    (∃ w u, FullyDeduplicatingSerializer.encode (.list [.ent .text [.str "hi"], .dict [("k", .int 1)], .null]) = some w ∧
       FullyDeduplicatingSerializer.decode w true = some u ∧
       pyEq u (.list [.ent .text [.str "hi"], .dict [("k", .int 1)], .null]) = true) :=
  C1_roundtrip_amended _ true (by decide) (by decide) (by decide) (by decide)

/-- C1 counterexample: mappings holding a serializer's reserved key are
built only from primitives and mappings with unique keys, yet that
serializer's encode fails its assertion on them, so decode(encode v)
does not reproduce them. -/
theorem C1_reserved_key_cex :
    PlainSerializer.encode (.dict [("_type", .null)]) = none ∧
    DeduplicatingSerializer.encode (.dict [("*", .null)]) = none ∧
    FullyDeduplicatingSerializer.encode (.dict [("&", .null)]) = none := by
  refine ⟨by decide, by decide, by decide⟩

/-- C4: encoding a sequence of two structurally equal entity instances
with DeduplicatingSerializer emits exactly one alias node
`{"&": alias, "_": [fields]}` for the first occurrence — the entity is
appended to the (initially empty) table at the next free index, 0 — and
exactly one back-reference node `{"*": 0}` for the second; the table
lookup compares content (the pickled key), not identity.  Stated for
entities whose fields are entity-free and reserved-key-free. -/
theorem C4_dedup_collapses_equal (t : ETag) (vals : List JVal)
    (he : entityFreeL vals = true) (hb : hasBadSL vals = false) :
    dEncF (jsize (.list [.ent t vals, .ent t vals])) (.list [.ent t vals, .ent t vals]) [] =
      some (.list [.dict [("&", .str (aliasOf t)), ("_", .list (canonL vals))],
                   .dict [("*", .int 0)]], [.ent t vals]) ∧
    DeduplicatingSerializer.encode (.list [.ent t vals, .ent t vals]) =
      some (.list [.dict [("&", .str (aliasOf t)), ("_", .list (canonL vals))],
                   .dict [("*", .int 0)]]) := by
  have h := dEnc_two_ents t vals (jsize (.list [.ent t vals, .ent t vals])) he hb
    (by simp [jsize, jsizeL]; omega)
  exact ⟨h, by simp [DeduplicatingSerializer.encode, h]⟩

/-- C4 witness: two equal one-field text entities in a sequence. -/
theorem C4_dedup_collapses_equal_w :
    dEncF (jsize (.list [.ent .text [.str "hi"], .ent .text [.str "hi"]]))
        (.list [.ent .text [.str "hi"], .ent .text [.str "hi"]]) [] =
      some (.list [.dict [("&", .str (aliasOf .text)), ("_", .list (canonL [.str "hi"]))],
                   .dict [("*", .int 0)]], [.ent .text [.str "hi"]]) ∧
    DeduplicatingSerializer.encode (.list [.ent .text [.str "hi"], .ent .text [.str "hi"]]) =
      some (.list [.dict [("&", .str (aliasOf .text)), ("_", .list (canonL [.str "hi"]))],
                   .dict [("*", .int 0)]]) :=
  C4_dedup_collapses_equal .text [.str "hi"] (by decide) (by decide)

/-- C7 (corrected): on entity-free values DeduplicatingSerializer.encode
agrees with PlainSerializer.encode only up to mapping key order: the
deduplicating encoder sorts every mapping's keys (yielding the canonical
key-sorted form) while the plain encoder preserves insertion order.  The
outputs are Python-equal (`==`) and coincide exactly when every mapping's
keys are already sorted; they differ on an unsorted mapping
(counterexample below), so the wire trees are not identical in general as
the frozen claim states. -/
theorem C7_dedup_vs_plain_amended (v : JVal) (he : entityFree v = true)
    (ht : hasBadT v = false) (hs : hasBadS v = false) (hu : allUniq v = true) :
    DeduplicatingSerializer.encode v = some (canon v) ∧
    PlainSerializer.encode v = some v ∧
    pyEq (canon v) v = true ∧
    (allKeySorted v = true → DeduplicatingSerializer.encode v = PlainSerializer.encode v) := by
  have hd : DeduplicatingSerializer.encode v = some (canon v) := by
    have h := (dEnc_EF (jsize v)).1 v [] le_rfl he hs
    simp [DeduplicatingSerializer.encode, h]
  have hp : PlainSerializer.encode v = some v := plainEF_V v he ht
  refine ⟨hd, hp, pyEq_canon hu, fun hk => ?_⟩
  rw [hd, hp, canon_fix hk]

/-- C7 witness: a two-key mapping with sorted keys, where the two
encoders agree exactly. -/
theorem C7_dedup_vs_plain_amended_w :
    DeduplicatingSerializer.encode (.dict [("a", .int 1), ("b", .null)]) =
      some (canon (.dict [("a", .int 1), ("b", .null)])) ∧
    PlainSerializer.encode (.dict [("a", .int 1), ("b", .null)]) =
      some (.dict [("a", .int 1), ("b", .null)]) ∧
    pyEq (canon (.dict [("a", .int 1), ("b", .null)])) (.dict [("a", .int 1), ("b", .null)]) = true ∧
    (allKeySorted (.dict [("a", .int 1), ("b", .null)]) = true →
      DeduplicatingSerializer.encode (.dict [("a", .int 1), ("b", .null)]) =
        PlainSerializer.encode (.dict [("a", .int 1), ("b", .null)])) :=
  C7_dedup_vs_plain_amended _ (by decide) (by decide) (by decide) (by decide)

/-- C7 counterexample: on a mapping with unsorted keys the deduplicating
encoder reorders the bindings while the plain encoder keeps them, so the
wire trees differ. -/
theorem C7_key_order_cex :
    DeduplicatingSerializer.encode (.dict [("b", .null), ("a", .null)]) =
      some (.dict [("a", .null), ("b", .null)]) ∧
    PlainSerializer.encode (.dict [("b", .null), ("a", .null)]) =
      some (.dict [("b", .null), ("a", .null)]) ∧
    DeduplicatingSerializer.encode (.dict [("b", .null), ("a", .null)]) ≠
      PlainSerializer.encode (.dict [("b", .null), ("a", .null)]) := by
  refine ⟨by decide, by decide, by decide⟩

/-- C10: each encoder is defined exactly away from its reserved keys:
PlainSerializer.encode fails (assertion) precisely when some mapping of
the input holds the key "_type", DeduplicatingSerializer.encode and
FullyDeduplicatingSerializer.encode precisely when some mapping holds
"*" or "&"; when no mapping holds the respective reserved keys, each
encode is total. -/
theorem C10_reserved_key_asserts (v : JVal) :
    (hasBadT v = true → PlainSerializer.encode v = none) ∧
    (hasBadT v = false → ∃ w, PlainSerializer.encode v = some w) ∧
    (hasBadS v = true → DeduplicatingSerializer.encode v = none) ∧
    (hasBadS v = false → ∃ w, DeduplicatingSerializer.encode v = some w) ∧
    (hasBadS v = true → FullyDeduplicatingSerializer.encode v = none) ∧
    (hasBadS v = false → ∃ w, FullyDeduplicatingSerializer.encode v = some w) := by
  refine ⟨fun h => plainB_V v h, fun h => plainS_V v h, ?_, ?_, ?_, ?_⟩
  · intro h
    simp [DeduplicatingSerializer.encode,
      @dEnc_none_of_bad (jsize v) v [] (by simp) h]
  · intro h
    obtain ⟨r, hr⟩ := (dEnc_S (jsize v)).1 v [] le_rfl h
    exact ⟨r.1, by simp [DeduplicatingSerializer.encode, hr]⟩
  · intro h
    simp [FullyDeduplicatingSerializer.encode,
      @fEnc_none_of_bad (jsize v) v [] (by simp) h]
  · intro h
    obtain ⟨r, hr⟩ := (fEnc_S (jsize v)).1 v [] le_rfl h
    exact ⟨r.1, by simp [FullyDeduplicatingSerializer.encode, hr]⟩

/-- C10 witness: the plain assertion fires on a "_type" mapping the
deduplicating encoders accept, and the deduplicating assertion fires on a
"&" mapping the plain encoder accepts. -/
theorem C10_reserved_key_asserts_w :
    PlainSerializer.encode (.dict [("_type", .null)]) = none ∧
    (∃ w, DeduplicatingSerializer.encode (.dict [("_type", .null)]) = some w) ∧
    (∃ w, FullyDeduplicatingSerializer.encode (.dict [("_type", .null)]) = some w) ∧
    (∃ w, PlainSerializer.encode (.dict [("&", .null)]) = some w) ∧
    DeduplicatingSerializer.encode (.dict [("&", .null)]) = none ∧
    FullyDeduplicatingSerializer.encode (.dict [("&", .null)]) = none :=
  ⟨(C10_reserved_key_asserts _).1 (by decide),
   (C10_reserved_key_asserts _).2.2.2.1 (by decide),
   (C10_reserved_key_asserts _).2.2.2.2.2 (by decide),
   (C10_reserved_key_asserts _).2.1 (by decide),
   (C10_reserved_key_asserts _).2.2.1 (by decide),
   (C10_reserved_key_asserts _).2.2.2.2.1 (by decide)⟩

/-- C2: against an entry stored by Cache.put, Cache.get returns the decoded
stored annotation exactly when the incoming config (normalized) is
Python-equal to the stored config and the incoming chunks (normalized) are
Python-equal to the stored chunk list; on an empty entry, or when either
comparison fails — one differing chunk character or configuration key
suffices to break Python equality — it returns None (a miss, not an
error). -/
theorem C2_cache_get_exact_match (chunks config annotated generator data chunks2 config2 : JVal)
    (hput : Cache.put chunks config annotated generator = some data)
    (hwa : wfArity annotated = true) :
    Cache.get JVal.null chunks2 config2 = some JVal.null ∧
    ∃ ok : Bool,
      Cache.validate data (Cache.normalize chunks2) (Cache.normalize config2) = some ok ∧
      Cache.get data chunks2 config2 = some (if ok then annotated else JVal.null) ∧
      (ok = true ↔ (pyEq (Cache.normalize config) (Cache.normalize config2) = true ∧
         ∃ cs, pyList chunks = some cs ∧ pyEq cs (Cache.normalize chunks2) = true)) := by
  refine ⟨rfl, ?_⟩
  simp only [Cache.put, Option.bind_eq_bind, Option.bind_eq_some, Option.pure_def,
    Option.some.injEq] at hput
  obtain ⟨w, hw, cs, hcs, hdata⟩ := hput
  subst hdata
  refine ⟨pyEq (Cache.normalize config) (Cache.normalize config2) &&
    pyEq cs (Cache.normalize chunks2), ?_, ?_, ?_⟩
  · simp only [Cache.validate, pySubscript, lookupKey, pyDictGet, validate_detailed,
      validate_contents]
    cases hq : pyEq (Cache.normalize config) (Cache.normalize config2) <;>
      simp [hq]
  · have hval : Cache.validate
        (JVal.dict [("generator", Cache.normalize generator),
          ("config", Cache.normalize config), ("chunks", cs), ("annotated", w)])
        (Cache.normalize chunks2) (Cache.normalize config2) =
        some (pyEq (Cache.normalize config) (Cache.normalize config2) &&
              pyEq cs (Cache.normalize chunks2)) := by
      simp only [Cache.validate, pySubscript, lookupKey, pyDictGet, validate_detailed,
        validate_contents]
      cases hq : pyEq (Cache.normalize config) (Cache.normalize config2) <;>
        simp [hq]
    simp only [Cache.get, Option.bind_eq_bind, hval, Option.some_bind]
    cases hok : (pyEq (Cache.normalize config) (Cache.normalize config2) &&
        pyEq cs (Cache.normalize chunks2)) with
    | true =>
      simp only [if_true]
      have hdec := plainRT_V annotated w hwa hw
      simp only [pyDictGet, lookupKey, PlainSerializer.decode] at *
      simp [hdec]
    | false => simp
  · constructor
    · intro h
      rw [Bool.and_eq_true] at h
      exact ⟨h.1, cs, hcs, h.2⟩
    · rintro ⟨h1, cs2, hcs2, h2⟩
      rw [hcs] at hcs2
      injection hcs2 with he
      subst he
      rw [Bool.and_eq_true]
      exact ⟨h1, h2⟩

/-- C2 witness: a stored entry hit with the exact same chunks and config. -/
theorem C2_cache_get_exact_match_w :
    Cache.get JVal.null exampleChunks exampleConfig = some JVal.null ∧
    ∃ ok : Bool,
      Cache.validate (JVal.dict [("generator", JVal.list [.str "x", .str "y"]),
          ("config", JVal.dict [("args", JVal.list [])]),
          ("chunks", exampleChunks), ("annotated", JVal.list [])])
        (Cache.normalize exampleChunks) (Cache.normalize exampleConfig) = some ok ∧
      Cache.get (JVal.dict [("generator", JVal.list [.str "x", .str "y"]),
          ("config", JVal.dict [("args", JVal.list [])]),
          ("chunks", exampleChunks), ("annotated", JVal.list [])])
        exampleChunks exampleConfig = some (if ok then JVal.list [] else JVal.null) ∧
      (ok = true ↔ (pyEq (Cache.normalize exampleConfig) (Cache.normalize exampleConfig) = true ∧
         ∃ cs, pyList exampleChunks = some cs ∧
           pyEq cs (Cache.normalize exampleChunks) = true)) :=
  C2_cache_get_exact_match exampleChunks exampleConfig (JVal.list [])
    (JVal.list [.str "x", .str "y"]) _ exampleChunks exampleConfig (by rfl) (by decide)

/-- C9 (corrected): on a populated entry the generator accessor returns
the stored (name, version) pair, or the fixed placeholder
("Coq+SerAPI", "??") when none was stored; but on a never-populated entry
(data None) the attribute access raises instead, so the accessor does not
"never fail" as the frozen claim states. -/
theorem C9_generator_amended (kvs : List (String × JVal)) :
    (∀ a b, lookupKey "generator" kvs = some (.list [a, b]) →
       Cache.generator (.dict kvs) = some (a, b)) ∧
    (lookupKey "generator" kvs = none →
       Cache.generator (.dict kvs) = some (.str "Coq+SerAPI", .str "??")) ∧
    Cache.generator JVal.null = none := by
  refine ⟨?_, ?_, rfl⟩
  · intro a b h
    simp [Cache.generator, h]
  · intro h
    simp [Cache.generator, h, Cache.generatorDefault]

/-- C9 witness: a stored pair, the placeholder on a populated entry with
no stored generator, and the failure on the unpopulated entry. -/
theorem C9_generator_amended_w :
    Cache.generator (.dict [("generator", JVal.list [.str "n", .str "v"])]) =
      some (.str "n", .str "v") ∧
    Cache.generator (.dict [("other", JVal.null)]) =
      some (.str "Coq+SerAPI", .str "??") ∧
    Cache.generator JVal.null = none :=
  ⟨(C9_generator_amended [("generator", JVal.list [.str "n", .str "v"])]).1 _ _ rfl,
   (C9_generator_amended [("other", JVal.null)]).2.1 rfl,
   (C9_generator_amended []).2.2⟩

/-- C9 counterexample: the accessor fails on a never-populated entry
(attribute access on Python None) instead of returning the placeholder. -/
theorem C9_unpopulated_generator_cex : Cache.generator JVal.null = none := rfl

/-- C3: Cache.update invokes the prover's annotate exactly zero times on a
hit (returning the stored decoded annotation and leaving the entry alone)
and exactly once on a miss (storing and returning the fresh result); in
the spec's scenario a first update on an empty entry calls the prover
once, a second update with identical chunks and config makes zero calls,
and a third update whose chunk list carries one extra empty chunk is a
miss that calls the prover again.  (The Nat of the update model counts
prover invocations.) -/
theorem C3_update_prover_invocations (p : Prover)
    (hne : p.annotate exampleChunks exampleConfig ≠ JVal.null)
    (ht1 : hasBadT (p.annotate exampleChunks exampleConfig) = false)
    (hwf1 : wfArity (p.annotate exampleChunks exampleConfig) = true)
    (ht3 : hasBadT (p.annotate exampleChunks3 exampleConfig) = false) :
    (∀ data chunks config ann d n,
       Cache.update p data chunks config = some (ann, d, n) →
       (n = 0 ∧ d = data ∧ Cache.get data chunks config = some ann ∧ ann ≠ JVal.null) ∨
       (n = 1 ∧ ann = p.annotate chunks config ∧
          Cache.get data chunks config = some JVal.null)) ∧
    ∃ d1, Cache.update p JVal.null exampleChunks exampleConfig =
        some (p.annotate exampleChunks exampleConfig, d1, 1) ∧
      Cache.update p d1 exampleChunks exampleConfig =
        some (p.annotate exampleChunks exampleConfig, d1, 0) ∧
      ∃ d3, Cache.update p d1 exampleChunks3 exampleConfig =
        some (p.annotate exampleChunks3 exampleConfig, d3, 1) := by
  constructor
  · intro data chunks config ann d n h
    simp only [Cache.update, Option.bind_eq_bind, Option.bind_eq_some] at h
    obtain ⟨a0, ha0, h⟩ := h
    by_cases hnull : a0 = JVal.null
    · subst hnull
      rw [if_pos rfl] at h
      cases hp2 : Cache.put chunks config (p.annotate chunks config) p.version_info with
      | none => rw [hp2] at h; simp at h
      | some d2 =>
        rw [hp2] at h
        simp only [Option.pure_def, Option.some.injEq, Prod.mk.injEq] at h
        exact Or.inr ⟨h.2.2.symm, h.1.symm, ha0⟩
    · rw [if_neg hnull] at h
      simp only [Option.pure_def, Option.some.injEq, Prod.mk.injEq] at h
      refine Or.inl ⟨h.2.2.symm, h.2.1.symm, ?_, ?_⟩
      · rw [ha0, h.1]
      · rw [← h.1]; exact hnull
  · obtain ⟨w1, hw1e⟩ := plainS_V _ ht1
    obtain ⟨w3, hw3e⟩ := plainS_V _ ht3
    have hput1 : Cache.put exampleChunks exampleConfig
        (p.annotate exampleChunks exampleConfig) p.version_info =
        some (JVal.dict [("generator", Cache.normalize p.version_info),
          ("config", Cache.normalize exampleConfig),
          ("chunks", exampleChunks), ("annotated", w1)]) := by
      simp only [Cache.put, PlainSerializer.encode, hw1e, Option.bind_eq_bind,
        Option.some_bind]
      rfl
    have hput3 : Cache.put exampleChunks3 exampleConfig
        (p.annotate exampleChunks3 exampleConfig) p.version_info =
        some (JVal.dict [("generator", Cache.normalize p.version_info),
          ("config", Cache.normalize exampleConfig),
          ("chunks", exampleChunks3), ("annotated", w3)]) := by
      simp only [Cache.put, PlainSerializer.encode, hw3e, Option.bind_eq_bind,
        Option.some_bind]
      rfl
    refine ⟨JVal.dict [("generator", Cache.normalize p.version_info),
        ("config", Cache.normalize exampleConfig),
        ("chunks", exampleChunks), ("annotated", w1)], ?_, ?_, ?_⟩
    · simp only [Cache.update, Option.bind_eq_bind]
      have hg : Cache.get JVal.null exampleChunks exampleConfig = some JVal.null := rfl
      rw [hg]
      simp only [Option.some_bind, if_pos rfl, hput1]
      rfl
    · have hval : Cache.validate
          (JVal.dict [("generator", Cache.normalize p.version_info),
            ("config", Cache.normalize exampleConfig),
            ("chunks", exampleChunks), ("annotated", w1)])
          (Cache.normalize exampleChunks) (Cache.normalize exampleConfig) =
          some true := by
        simp only [Cache.validate, pySubscript, lookupKey, pyDictGet, validate_detailed,
          validate_contents]
        simp [show pyEq (Cache.normalize exampleConfig) (Cache.normalize exampleConfig) = true
                from by decide,
              show pyEq exampleChunks (Cache.normalize exampleChunks) = true from by decide]
      have hg : Cache.get
          (JVal.dict [("generator", Cache.normalize p.version_info),
            ("config", Cache.normalize exampleConfig),
            ("chunks", exampleChunks), ("annotated", w1)])
          exampleChunks exampleConfig = some (p.annotate exampleChunks exampleConfig) := by
        simp only [Cache.get, Option.bind_eq_bind, hval, Option.some_bind, if_true]
        have hdec := plainRT_V _ w1 hwf1 hw1e
        simp only [pyDictGet, lookupKey, PlainSerializer.decode] at *
        simp [hdec]
      simp only [Cache.update, Option.bind_eq_bind, hg, Option.some_bind, if_neg hne]
      rfl
    · have hval3 : Cache.validate
          (JVal.dict [("generator", Cache.normalize p.version_info),
            ("config", Cache.normalize exampleConfig),
            ("chunks", exampleChunks), ("annotated", w1)])
          (Cache.normalize exampleChunks3) (Cache.normalize exampleConfig) =
          some false := by
        simp only [Cache.validate, pySubscript, lookupKey, pyDictGet, validate_detailed,
          validate_contents]
        simp [show pyEq (Cache.normalize exampleConfig) (Cache.normalize exampleConfig) = true
                from by decide,
              show pyEq exampleChunks (Cache.normalize exampleChunks3) = false from by decide]
      have hg3 : Cache.get
          (JVal.dict [("generator", Cache.normalize p.version_info),
            ("config", Cache.normalize exampleConfig),
            ("chunks", exampleChunks), ("annotated", w1)])
          exampleChunks3 exampleConfig = some JVal.null := by
        simp [Cache.get, hval3]
      refine ⟨JVal.dict [("generator", Cache.normalize p.version_info),
          ("config", Cache.normalize exampleConfig),
          ("chunks", exampleChunks3), ("annotated", w3)], ?_⟩
      simp only [Cache.update, Option.bind_eq_bind, hg3, Option.some_bind, if_pos rfl, hput3]
      rfl

/-- C3 witness: the scenario for a concrete prover returning a fixed
nonempty annotation. -/
theorem C3_update_prover_invocations_w :
    (∀ data chunks config ann d n,
       Cache.update ⟨fun _ _ => JVal.list [.str "ok"], "coq", "1"⟩ data chunks config =
         some (ann, d, n) →
       (n = 0 ∧ d = data ∧ Cache.get data chunks config = some ann ∧ ann ≠ JVal.null) ∨
       (n = 1 ∧ ann = (Prover.mk (fun _ _ => JVal.list [.str "ok"]) "coq" "1").annotate chunks config ∧
          Cache.get data chunks config = some JVal.null)) ∧
    ∃ d1, Cache.update ⟨fun _ _ => JVal.list [.str "ok"], "coq", "1"⟩ JVal.null exampleChunks exampleConfig =
        some ((Prover.mk (fun _ _ => JVal.list [.str "ok"]) "coq" "1").annotate exampleChunks exampleConfig, d1, 1) ∧
      Cache.update ⟨fun _ _ => JVal.list [.str "ok"], "coq", "1"⟩ d1 exampleChunks exampleConfig =
        some ((Prover.mk (fun _ _ => JVal.list [.str "ok"]) "coq" "1").annotate exampleChunks exampleConfig, d1, 0) ∧
      ∃ d3, Cache.update ⟨fun _ _ => JVal.list [.str "ok"], "coq", "1"⟩ d1 exampleChunks3 exampleConfig =
        some ((Prover.mk (fun _ _ => JVal.list [.str "ok"]) "coq" "1").annotate exampleChunks3 exampleConfig, d3, 1) :=
  C3_update_prover_invocations ⟨fun _ _ => JVal.list [.str "ok"], "coq", "1"⟩
    (by decide) (by decide) (by decide) (by decide)

/-- C5: persisting a FileCacheSet writes only when the recomputed snapshot
(metadata plus one entry per registered language, sorted by language tag)
differs from the loaded content under Python equality, or the requested
compression differs from the on-disk one; in particular a set loaded from
a valid cache file and closed without mutation under the same requested
compression performs no disk write. -/
theorem C5_idempotent_persistence (comp : String) (kvs : List (String × JVal)) (disk : Disk)
    (hread : FileCacheSet.read disk =
      (some comp, .dict [("metadata", FileCacheSet.METADATA), ("caches", .dict kvs)]))
    (hn : nodupKeysB kvs = true) (hu : allUniqD kvs = true) :
    (∀ (s : FileCacheSet) (d : Disk), pyEq (FileCacheSet.snapshot s) s.js = true →
       FileCacheSet.check_recompression s = false →
       FileCacheSet.write s d = (s, d)) ∧
    ∃ s, FileCacheSet.load (some comp) disk = some s ∧
      FileCacheSet.write s disk = (s, disk) := by
  have hgen : ∀ (s : FileCacheSet) (d : Disk), pyEq (FileCacheSet.snapshot s) s.js = true →
      FileCacheSet.check_recompression s = false →
      FileCacheSet.write s d = (s, d) := by
    intro s d h1 h2
    simp [FileCacheSet.write, h1, h2]
  have hknown := read_compression_known hread
  have hne2 : ¬(comp = "") := by rcases hknown with rfl | rfl | rfl <;> decide
  have hmem : comp ∈ FileCacheSet.KNOWN_COMPRESSIONS := by
    rcases hknown with rfl | rfl | rfl <;> decide
  have hmeta : pyEq FileCacheSet.METADATA FileCacheSet.METADATA = true := by decide
  have hvm : FileCacheSet.validateMeta (.dict [("metadata", FileCacheSet.METADATA),
      ("caches", .dict kvs)]) = some true := by
    simp [FileCacheSet.validateMeta, truthy, pySubscript, lookupKey, validate_detailed, hmeta]
  have hload : FileCacheSet.load (some comp) disk = some ⟨comp, some comp,
      .dict [("metadata", FileCacheSet.METADATA), ("caches", .dict kvs)], sortByKey kvs⟩ := by
    simp only [FileCacheSet.load, hread, FileCacheSet.mkSet]
    rw [if_neg hne2, if_pos hmem]
    simp [hvm, pySubscript, lookupKey]
  refine ⟨hgen, ⟨comp, some comp,
    .dict [("metadata", FileCacheSet.METADATA), ("caches", .dict kvs)], sortByKey kvs⟩,
    hload, ?_⟩
  have hinner : pyEq (.dict (sortByKey kvs)) (.dict kvs) = true :=
    pyEq_dict_perm (sortByKey_perm kvs) hn hu
  have hsnap : FileCacheSet.snapshot ⟨comp, some comp,
      .dict [("metadata", FileCacheSet.METADATA), ("caches", .dict kvs)], sortByKey kvs⟩ =
      .dict [("metadata", FileCacheSet.METADATA), ("caches", .dict (sortByKey kvs))] := by
    simp [FileCacheSet.snapshot, sortByKey_fix (keysSorted_sortByKey kvs)]
  have hpe : pyEq (.dict [("metadata", FileCacheSet.METADATA),
      ("caches", .dict (sortByKey kvs))])
      (.dict [("metadata", FileCacheSet.METADATA), ("caches", .dict kvs)]) = true := by
    have h1 : pyEqD [("metadata", FileCacheSet.METADATA), ("caches", JVal.dict (sortByKey kvs))]
        [("metadata", FileCacheSet.METADATA), ("caches", JVal.dict kvs)] = true := by
      apply pyEqD_of_lookup
      intro p hp
      rcases List.mem_cons.mp hp with rfl | hp2
      · exact ⟨FileCacheSet.METADATA, by simp [lookupKey], by decide⟩
      · rcases List.mem_cons.mp hp2 with rfl | hp3
        · exact ⟨JVal.dict kvs, by simp [lookupKey], hinner⟩
        · exact absurd hp3 (List.not_mem_nil _)
    simp only [pyEq, Bool.and_eq_true]
    exact ⟨by simp, h1⟩
  have hrec : FileCacheSet.check_recompression ⟨comp, some comp,
      .dict [("metadata", FileCacheSet.METADATA), ("caches", .dict kvs)], sortByKey kvs⟩ =
      false := by
    simp [FileCacheSet.check_recompression]
  exact hgen _ disk (by rw [hsnap]; exact hpe) hrec

/-- C5 witness: a one-language cache file closed unchanged under its own
compression. -/
theorem C5_idempotent_persistence_w :
    (∀ (s : FileCacheSet) (d : Disk), pyEq (FileCacheSet.snapshot s) s.js = true →
       FileCacheSet.check_recompression s = false →
       FileCacheSet.write s d = (s, d)) ∧
    ∃ s, FileCacheSet.load (some "none")
        [("none", .dict [("metadata", FileCacheSet.METADATA),
          ("caches", .dict [("coq", .null)])])] = some s ∧
      FileCacheSet.write s
        [("none", .dict [("metadata", FileCacheSet.METADATA),
          ("caches", .dict [("coq", .null)])])] =
        (s, [("none", .dict [("metadata", FileCacheSet.METADATA),
          ("caches", .dict [("coq", .null)])])]) :=
  C5_idempotent_persistence "none" [("coq", .null)]
    [("none", .dict [("metadata", FileCacheSet.METADATA), ("caches", .dict [("coq", .null)])])]
    (by rfl) (by decide) (by decide)

/-- C6 (corrected): closing a scope that was opened with no cache file on
disk writes a fresh snapshot even when no entry was populated — the
recomputed snapshot differs from the absent loaded content, so the
claim's "nothing is written" fails in exactly this case; the write lands
under the requested compression. -/
theorem C6_fresh_scope_writes_amended (comp : Option String) (s : FileCacheSet)
    (hload : FileCacheSet.load comp [] = some s) :
    FileCacheSet.write s [] =
      ({ s with js := FileCacheSet.snapshot s,
                ondisk_compression := some s.wanted_compression },
       [(s.wanted_compression, FileCacheSet.snapshot s)]) ∧
    (FileCacheSet.write s []).2 ≠ [] := by
  have hsform : ∃ w, s = ⟨w, none, JVal.null, []⟩ := by
    cases comp with
    | none =>
      rw [show FileCacheSet.load none [] =
          some ⟨"none", none, JVal.null, []⟩ from rfl] at hload
      exact ⟨"none", by injection hload with h; exact h.symm⟩
    | some c =>
      by_cases hc : c = ""
      · subst hc
        rw [show FileCacheSet.load (some "") [] =
            some ⟨"none", none, JVal.null, []⟩ from rfl] at hload
        exact ⟨"none", by injection hload with h; exact h.symm⟩
      · have hred : FileCacheSet.load (some c) [] =
            (if c ∈ FileCacheSet.KNOWN_COMPRESSIONS then
              some ⟨c, none, JVal.null, []⟩ else none) := by
          simp [FileCacheSet.load, FileCacheSet.read, lookupKey, FileCacheSet.mkSet,
            FileCacheSet.validateMeta, truthy, hc]
        rw [hred] at hload
        split at hload
        · exact ⟨c, by injection hload with h; exact h.symm⟩
        · exact absurd hload (by simp)
  obtain ⟨w, rfl⟩ := hsform
  refine ⟨rfl, ?_⟩
  rw [show (FileCacheSet.write ⟨w, none, JVal.null, []⟩ []).2 =
      [(w, FileCacheSet.snapshot ⟨w, none, JVal.null, []⟩)] from rfl]
  simp

/-- C6 witness: the fresh-scope write at the default compression. -/
theorem C6_fresh_scope_writes_amended_w :
    FileCacheSet.write ⟨"none", none, JVal.null, []⟩ [] =
      (⟨"none", some "none",
        .dict [("metadata", FileCacheSet.METADATA), ("caches", .dict [])], []⟩,
       [("none", .dict [("metadata", FileCacheSet.METADATA), ("caches", .dict [])])]) ∧
    (FileCacheSet.write ⟨"none", none, JVal.null, []⟩ []).2 ≠ [] :=
  C6_fresh_scope_writes_amended none _ rfl

/-- C6 counterexample: a scope opened on an empty disk and closed with no
entry populated still writes (an empty snapshot). -/
theorem C6_unpopulated_write_cex :
    ∃ s, FileCacheSet.load none [] = some s ∧
      (FileCacheSet.write s []).2 =
        [("none", .dict [("metadata", FileCacheSet.METADATA), ("caches", .dict [])])] :=
  ⟨⟨"none", none, JVal.null, []⟩, rfl, rfl⟩

/-- C8: when the resolved frontend does not support the requested or
inferred backend, resolve_pipeline fails with the configuration error
naming the offending frontend and backend and listing the frontend's
supported backends, and processing any batch containing such an input
executes no pipeline step: the error escapes before the processing loop,
leaving an empty step trace. -/
theorem C8_unsupported_backend_fails_early (inputs : List String) (fpath : String)
    (argF argB argOut : Option String) (frontend backend : String)
    (sup : List (String × List String))
    (hmem : fpath ∈ inputs)
    (hf : frontend_of fpath argF = .ok frontend)
    (hp : lookupTab frontend PIPELINES = some sup)
    (hb : backend_of frontend argB argOut = .ok backend)
    (hun : lookupTab backend sup = none) :
    resolve_pipeline fpath argF argB argOut =
      .error (.unsupportedBackend frontend backend (sup.map Prod.fst)) ∧
    ∃ e, process_pipelines inputs argF argB argOut = ([], some e) := by
  have hres : resolve_pipeline fpath argF argB argOut =
      .error (.unsupportedBackend frontend backend (sup.map Prod.fst)) := by
    simp only [resolve_pipeline, hf, except_bind_ok, hp, hb, hun]
  refine ⟨hres, ?_⟩
  obtain ⟨e2, he2⟩ := resolve_all_error_of_mem hmem hres
  exact ⟨e2, by simp [process_pipelines, he2]⟩

/-- C8 witness: a reStructuredText input with the json backend requested,
which the rst frontend does not support. -/
theorem C8_unsupported_backend_fails_early_w :
    resolve_pipeline "doc.rst" none (some "json") none =
      .error (.unsupportedBackend "rst" "json" ["webpage", "latex", "lint", "coq", "coq+rst"]) ∧
    ∃ e, process_pipelines ["doc.rst"] none (some "json") none = ([], some e) :=
  C8_unsupported_backend_fails_early ["doc.rst"] "doc.rst" none (some "json") none
    "rst" "json"
    [("webpage", ["read_plain", "register_docutils", "gen_docutils", "copy_assets", "write_file"]),
     ("latex", ["read_plain", "register_docutils", "gen_docutils", "copy_assets", "write_file"]),
     ("lint", ["read_plain", "register_docutils", "lint_docutils", "write_file"]),
     ("coq", ["read_plain", "rst_to_code", "write_file"]),
     ("coq+rst", ["read_plain", "rst_to_code", "write_file"])]
    (List.mem_cons_self _ _) (by rfl) (by rfl) (by rfl) (by rfl)
